import Mathlib

/-!
# Verification of the `ghinstall` archive-extraction and release-selection code

This file is a shallow embedding, in Lean 4, of the parts of the
`sixban6/ghinstall` Go repository that the specification's claims are about:

* the lexical path handling of Go's `path/filepath` package on unix
  (`Clean`, `Join`, `Dir`) and `strings.HasPrefix`, which the extractors use
  for their path-safety checks;
* the archive format sniffing (`detectFormat` in
  `internal/extractor/extractor.go` and `detectFormatFromBytes` in
  `internal/extractor/system_extractor_unix.go`);
* the per-entry extraction logic of `OptimizedExtractor`
  (`extractTarEntryOptimized`, `extractZipEntryOptimized`,
  `extractFileOptimized`, `extractTarGzStream`, `extractZipFromReader`),
  modelled as a decision (`EntryOutcome`) followed by filesystem actions on an
  explicit filesystem state;
* release selection (`filterStableReleases`, `findLatestRelease`,
  `normalizeTag` in `internal/release/release.go`), with the external
  `golang.org/x/mod/semver` comparison kept abstract (its ordering properties
  become hypotheses) and its validity test (`semver.IsValid`) modelled
  concretely;
* the mirror-URL logic (`Config.GetDownloadURL` and the `installRepo`
  download-URL choice).

Go strings are Lean `String`s; byte streams are `List Nat`; the filesystem is
an explicit association list from paths to nodes, and the POSIX calls the
materializer issues (`os.MkdirAll`, `os.OpenFile` with `O_CREATE|O_TRUNC`,
`os.Symlink`) are modelled as transformations of that state.
-/

/-! ## Go `path/filepath` on unix, and `strings.HasPrefix` -/

/-- Model of `strings.HasPrefix s pre`: `pre` is a raw string prefix of `s`. -/
def strStartsWith (s pre : String) : Bool :=
  pre.data.isPrefixOf s.data

/-- Split a character list on a separator character. The result always has at
least one (possibly empty) segment; `n` separators give `n+1` segments. -/
def splitOnChar (sep : Char) : List Char → List (List Char)
  | [] => [[]]
  | c :: cs =>
    let r := splitOnChar sep cs
    if c = sep then [] :: r
    else
      match r with
      | [] => [[c]]
      | s :: ss => (c :: s) :: ss

/-- The segment-stack processing of Go's `filepath.Clean` (unix): empty and
`"."` segments are dropped, `".."` pops a poppable segment, stays at the root
when the path is rooted, and is kept otherwise. The stack is kept reversed
(most recent segment first). -/
def cleanStack (rooted : Bool) : List (List Char) → List (List Char) → List (List Char)
  | stack, [] => stack
  | stack, seg :: rest =>
    if seg = [] ∨ seg = ['.'] then cleanStack rooted stack rest
    else if seg = ['.', '.'] then
      match stack with
      | [] => if rooted then cleanStack rooted [] rest else cleanStack rooted [['.', '.']] rest
      | top :: stk =>
        if top = ['.', '.'] then cleanStack rooted (seg :: stack) rest
        else cleanStack rooted stk rest
    else cleanStack rooted (seg :: stack) rest

/-- Concatenate path segments with `'/'` separators. -/
def joinSegs : List (List Char) → List Char
  | [] => []
  | [s] => s
  | s :: rest => s ++ '/' :: joinSegs rest

/-- Render a cleaned segment stack back into a path. An empty result is `"/"`
for rooted paths and `"."` otherwise, exactly as in `filepath.Clean`. -/
def renderSegs (rooted : Bool) (stack : List (List Char)) : List Char :=
  let parts := stack.reverse
  if rooted then '/' :: joinSegs parts
  else if parts = [] then ['.']
  else joinSegs parts

/-- Go `filepath.Clean` (unix), on character lists: purely lexical
canonicalization — collapse empty and `"."` segments and resolve `".."`
without touching the filesystem. -/
def cleanChars (p : List Char) : List Char :=
  match p with
  | [] => ['.']
  | c :: _ => renderSegs (c = '/') (cleanStack (c = '/') [] (splitOnChar '/' p))

/-- Go `filepath.Join` for two elements (unix): empty elements are dropped,
the rest are joined with `"/"` and the result is `Clean`ed; all-empty input
gives the empty string. -/
def joinChars (a b : List Char) : List Char :=
  if a = [] ∧ b = [] then []
  else if a = [] then cleanChars b
  else if b = [] then cleanChars a
  else cleanChars (a ++ '/' :: b)

/-- Strip the last path component (keeping the trailing separator), as Go's
`filepath.Dir` does before `Clean`ing. -/
def dropLastComponent (p : List Char) : List Char :=
  (p.reverse.dropWhile (fun c => c ≠ '/')).reverse

/-- Go `filepath.Clean` on `String`s. -/
def filepathClean (s : String) : String :=
  String.mk (cleanChars s.data)

/-- Go `filepath.Join` on two `String`s. -/
def filepathJoin (a b : String) : String :=
  String.mk (joinChars a.data b.data)

/-- Go `filepath.Dir` on `String`s: everything up to the final separator,
`Clean`ed (`"."` when there is no separator). -/
def filepathDir (s : String) : String :=
  String.mk (cleanChars (dropLastComponent s.data))

/-- Once a `".."` appears in the stack (reading from the top), everything
below it is also `".."`: `".."` segments survive only as a run at the bottom
of the stack. -/
def ddSuffix : List (List Char) → Prop
  | [] => True
  | s :: rest => (s = ['.', '.'] → ∀ t ∈ rest, t = ['.', '.']) ∧ ddSuffix rest

/-- Invariant of the `cleanStack` state: segments are nonempty, are not `"."`,
contain no separator, `".."` only occurs as a bottom run, and a rooted path
never keeps a `".."`. -/
def stackOK (rooted : Bool) (stack : List (List Char)) : Prop :=
  (∀ s ∈ stack, s ≠ [] ∧ s ≠ ['.'] ∧ '/' ∉ s) ∧ ddSuffix stack ∧
    (rooted = true → ∀ s ∈ stack, s ≠ ['.', '.'])

/-! ## Format sniffing

Bytes are modelled as `Nat` values (`'P' = 80`, `'K' = 75`). -/

/-- Model of `detectFormat` from `internal/extractor/extractor.go` (lines 55-69). The
two error strings are the source's two distinct `fmt.Errorf` messages. -/
def detectFormat (data : List Nat) : Except String String :=
  if data.length < 4 then .error "file too small to detect format"
  else if data.getD 0 0 = 0x1f ∧ data.getD 1 0 = 0x8b then .ok "tar.gz"
  else if data.getD 0 0 = 80 ∧ data.getD 1 0 = 75 ∧ data.getD 2 0 = 3 ∧ data.getD 3 0 = 4 then
    .ok "zip"
  else .error "unknown archive format"

/-- Model of `detectFormatFromBytes` from `system_extractor_unix.go` (lines 103-117):
returns `""` both for short input and for an unrecognized magic number. -/
def detectFormatFromBytes (data : List Nat) : String :=
  if data.length < 4 then ""
  else if data.getD 0 0 = 0x1f ∧ data.getD 1 0 = 0x8b then "tar.gz"
  else if data.getD 0 0 = 80 ∧ data.getD 1 0 = 75 ∧ data.getD 2 0 = 3 ∧ data.getD 3 0 = 4 then
    "zip"
  else ""

/-- The sniffing phase of `OptimizedExtractor.Extract` (lines 82-100): a
`bufio` `Peek(4)` fails when fewer than 4 bytes are available (that error is
returned as the peek failure), otherwise `detectFormatFromBytes` classifies
the 4-byte prefix and an empty classification is the unsupported-format
error. -/
def optimizedSniff (data : List Nat) : Except String String :=
  if data.length < 4 then .error "failed to peek archive data"
  else
    let format := detectFormatFromBytes (data.take 4)
    if format = "tar.gz" ∨ format = "tgz" then .ok format
    else if format = "zip" then .ok format
    else .error "unsupported archive format"

/-! ## Filesystem model

An explicit state for the POSIX calls the materializer issues. The state maps
paths to nodes; `fsUpdate` replaces in place or appends, so it preserves the
positions of existing entries. -/

inductive FsNode
  | dir (mode : Nat)
  | file (content : String) (mode : Nat)
  | link (target : String)
deriving DecidableEq, Repr

abbrev FS := List (String × FsNode)

def fsLookup (fs : FS) (p : String) : Option FsNode :=
  match fs with
  | [] => none
  | (q, n) :: rest => if q = p then some n else fsLookup rest p

def fsUpdate (fs : FS) (p : String) (n : FsNode) : FS :=
  match fs with
  | [] => [(p, n)]
  | (q, m) :: rest => if q = p then (q, n) :: rest else (q, m) :: fsUpdate rest p n

inductive FsErr
  | notDir        -- ENOTDIR: a non-directory blocks a directory component
  | alreadyExists -- EEXIST: symlink target path already exists
  | noParent      -- ENOENT: parent directory missing
  | isDir         -- EISDIR: opening a directory for writing
  | isLink        -- writing through an existing symlink (outside modelled scope)
deriving DecidableEq, Repr

/-- The chain of directory paths `os.MkdirAll` ensures for a (lexically
cleaned) path: one path per leading segment run, e.g. `"/a/b"` gives
`["/a", "/a/b"]`. -/
def ancestorPaths (p : String) : List String :=
  let c := cleanChars p.data
  let rooted : Bool := c.head? = some '/'
  let segs := (splitOnChar '/' c).filter (fun s => s ≠ [])
  (List.range segs.length).map (fun i =>
    String.mk (if rooted then '/' :: joinSegs (segs.take (i + 1))
               else joinSegs (segs.take (i + 1))))

/-- One `mkdir` step per chain element: an existing directory is kept
(`os.MkdirAll` is idempotent), a non-directory in the way is `ENOTDIR`. -/
def mkdirChain (perm : Nat) (fs : FS) : List String → Except FsErr FS
  | [] => .ok fs
  | q :: rest =>
    match fsLookup fs q with
    | some (.dir _) => mkdirChain perm fs rest
    | some _ => .error .notDir
    | none => mkdirChain perm (fsUpdate fs q (.dir perm)) rest

/-- Model of `os.MkdirAll(p, perm)`. -/
def fsMkdirAll (fs : FS) (p : String) (perm : Nat) : Except FsErr FS :=
  mkdirChain perm fs (ancestorPaths p)

/-- Model of `os.OpenFile(p, O_WRONLY|O_CREATE|O_TRUNC, perm)` followed by writing
`content`: an existing regular file is truncated and rewritten and keeps its
permission bits (the mode argument applies only at creation); a directory is
`EISDIR`. Writing through an existing symlink is outside the modelled scope
and is treated as an error. -/
def fsWriteFile (fs : FS) (p : String) (content : String) (perm : Nat) : Except FsErr FS :=
  match fsLookup fs p with
  | some (.dir _) => .error .isDir
  | some (.file _ m) => .ok (fsUpdate fs p (.file content m))
  | some (.link _) => .error .isLink
  | none => .ok (fsUpdate fs p (.file content perm))

/-- Model of `os.Symlink(target, p)`: `EEXIST` if `p` already exists (symlink creation
never overwrites), and the parent directory must already exist (`os.Symlink`
creates no parents). -/
def fsSymlink (fs : FS) (p target : String) : Except FsErr FS :=
  match fsLookup fs p with
  | some _ => .error .alreadyExists
  | none =>
    match fsLookup fs (filepathDir p) with
    | some (.dir _) => .ok (fsUpdate fs p (.link target))
    | _ => .error .noParent

/-! ## Archive entries and the per-entry extraction logic -/

/-- The `tar.Header.Typeflag` values the extractor distinguishes. -/
inductive TarType
  | dir      -- tar.TypeDir
  | reg      -- tar.TypeReg
  | symlink  -- tar.TypeSymlink
  | other    -- every other flag: ignored without error
deriving DecidableEq, Repr

/-- The `tar.Header` fields the extractor reads, plus the entry's content. -/
structure TarEntry where
  name : String
  typ : TarType
  linkname : String
  content : String
  mode : Nat
deriving DecidableEq, Repr

/-- A `zip.File`: name, whether `FileInfo().IsDir()`, content, mode. -/
structure ZipEntry where
  name : String
  isDir : Bool
  content : String
  mode : Nat
deriving DecidableEq, Repr

/-- What the per-entry extraction decides to do, before any filesystem
call. A rejected entry carries no path to act on. -/
inductive EntryOutcome
  | skipped
  | rejectedPath
  | rejectedLink
  | mkdirAll (path : String) (mode : Nat)
  | writeFile (path : String) (content : String) (mode : Nat)
  | makeLink (path target : String)
deriving DecidableEq, Repr

/-- Model of `extractTarEntryOptimized` (`system_extractor_unix.go` lines 146-176):
join and clean the paths, skip a `"./"`/`"."` entry, reject on the traversal
check, then dispatch on the type flag — with the raw-prefix symlink-target
check of line 169 (`strings.HasPrefix(filepath.Join(dst, linkTarget), dst)`,
against the uncleaned `dst`). -/
def tarEntryOutcome (dst : String) (e : TarEntry) : EntryOutcome :=
  let path := filepathJoin dst e.name
  let cleanedDst := filepathClean dst
  let cleanedPath := filepathClean path
  if e.name = "./" ∨ e.name = "." then .skipped
  else if !(strStartsWith cleanedPath cleanedDst) ||
      (cleanedPath != cleanedDst && !(strStartsWith cleanedPath (cleanedDst ++ "/"))) then
    .rejectedPath
  else
    match e.typ with
    | .dir => .mkdirAll path e.mode
    | .reg => .writeFile path e.content e.mode
    | .symlink =>
      if !(strStartsWith (filepathJoin dst e.linkname) dst) then .rejectedLink
      else .makeLink path e.linkname
    | .other => .skipped

/-- Model of `extractZipEntryOptimized` (`system_extractor_unix.go` lines 227-254):
the same skip and traversal checks, then `MkdirAll` for directory entries and
`extractFileOptimized` for the rest. -/
def zipEntryOutcome (dst : String) (z : ZipEntry) : EntryOutcome :=
  let path := filepathJoin dst z.name
  let cleanedDst := filepathClean dst
  let cleanedPath := filepathClean path
  if z.name = "./" ∨ z.name = "." then .skipped
  else if !(strStartsWith cleanedPath cleanedDst) ||
      (cleanedPath != cleanedDst && !(strStartsWith cleanedPath (cleanedDst ++ "/"))) then
    .rejectedPath
  else if z.isDir then .mkdirAll path z.mode
  else .writeFile path z.content z.mode

/-- Per-entry errors; the two rejection errors correspond to the source's
`"invalid file path: %s"` and `"invalid symlink target: %s"` messages. -/
inductive EntryErr
  | pathRejected
  | linkRejected
  | fsFail (e : FsErr)
deriving DecidableEq, Repr

/-- Materialize one decided outcome. A regular file is written as
`extractFileOptimized` does (`system_extractor_unix.go` lines 179-202):
`os.MkdirAll(filepath.Dir(path), 0755)` then create/truncate/copy. -/
def applyOutcome (fs : FS) : EntryOutcome → Except EntryErr FS
  | .skipped => .ok fs
  | .rejectedPath => .error .pathRejected
  | .rejectedLink => .error .linkRejected
  | .mkdirAll p m =>
    match fsMkdirAll fs p m with
    | .ok fs2 => .ok fs2
    | .error e => .error (.fsFail e)
  | .writeFile p c m =>
    match fsMkdirAll fs (filepathDir p) 0o755 with
    | .error e => .error (.fsFail e)
    | .ok fs2 =>
      match fsWriteFile fs2 p c m with
      | .ok fs3 => .ok fs3
      | .error e => .error (.fsFail e)
  | .makeLink p target =>
    match fsSymlink fs p target with
    | .ok fs2 => .ok fs2
    | .error e => .error (.fsFail e)

/-- One tar entry end to end: decide, then materialize. -/
def extractTarEntryM (dst : String) (fs : FS) (e : TarEntry) : Except EntryErr FS :=
  applyOutcome fs (tarEntryOutcome dst e)

/-- One zip entry end to end. -/
def extractZipEntryM (dst : String) (fs : FS) (z : ZipEntry) : Except EntryErr FS :=
  applyOutcome fs (zipEntryOutcome dst z)

/-- An extraction-level error: the per-entry failure wrapped with the
offending entry's archive path (`"failed to extract tar entry %s: %w"`). -/
structure WrappedErr where
  entryName : String
  cause : EntryErr
deriving DecidableEq, Repr

/-- The entry loop of `extractTarGzStream` (lines 129-143): entries in
archive order; the first failure aborts, wrapping the entry name, and leaves
the filesystem as the previous entries left it. -/
def extractTarEntries (dst : String) (fs : FS) : List TarEntry → FS × Option WrappedErr
  | [] => (fs, none)
  | e :: es =>
    match extractTarEntryM dst fs e with
    | .ok fs2 => extractTarEntries dst fs2 es
    | .error err => (fs, some ⟨e.name, err⟩)

/-- The entry loop of `extractZipFromReader` (lines 218-224). -/
def extractZipEntries (dst : String) (fs : FS) : List ZipEntry → FS × Option WrappedErr
  | [] => (fs, none)
  | z :: zs =>
    match extractZipEntryM dst fs z with
    | .ok fs2 => extractZipEntries dst fs2 zs
    | .error err => (fs, some ⟨z.name, err⟩)

/-- Model of `OptimizedExtractor.Extract` for a decoded tar.gz stream: create the
destination root (`os.MkdirAll(dst, 0755)`, line 77) and run the entry loop.
A root-creation failure is reported with the destination as the name. -/
def extractTarArchive (dst : String) (fs : FS) (entries : List TarEntry) :
    FS × Option WrappedErr :=
  match fsMkdirAll fs dst 0o755 with
  | .error e => (fs, some ⟨dst, .fsFail e⟩)
  | .ok fs2 => extractTarEntries dst fs2 entries

/-- Model of `OptimizedExtractor.Extract` for a decoded zip archive. -/
def extractZipArchive (dst : String) (fs : FS) (entries : List ZipEntry) :
    FS × Option WrappedErr :=
  match fsMkdirAll fs dst 0o755 with
  | .error e => (fs, some ⟨dst, .fsFail e⟩)
  | .ok fs2 => extractZipEntries dst fs2 entries

/-! ## Release selection (`internal/release/release.go`) -/

/-- The `Release` fields the selection logic reads; `publishedAt` is the
publish timestamp as an integer (`time.Time.After` is `>` on it). -/
structure Release where
  tagName : String
  draft : Bool
  prerelease : Bool
  publishedAt : Int
deriving DecidableEq, Repr

/-- Model of `filterStableReleases` (lines 88-96): keep non-draft, non-prerelease. -/
def filterStableReleases (releases : List Release) : List Release :=
  releases.filter (fun r => !r.draft && !r.prerelease)

/-- Model of `normalizeTag` (lines 129-139). -/
def normalizeTag (tag : String) : String :=
  if tag = "" then ""
  else if strStartsWith tag "v" then tag
  else "v" ++ tag

/-! ### `golang.org/x/mod/semver.IsValid`, modelled concretely

The comparison `semver.Compare` stays abstract (theorems take its ordering
properties as hypotheses), but validity is needed concretely. -/

def isDigitCh (c : Char) : Bool := '0' ≤ c && c ≤ '9'

def isIdentCh (c : Char) : Bool :=
  ('A' ≤ c && c ≤ 'Z') || ('a' ≤ c && c ≤ 'z') || isDigitCh c || c = '-'

/-- Model of `parseInt` of `x/mod/semver`: at least one digit, no leading zero unless
the number is exactly `"0"`; returns the unconsumed rest. -/
def parseNum : List Char → Option (List Char)
  | [] => none
  | c :: cs =>
    if !isDigitCh c then none
    else if c = '0' ∧ cs.takeWhile isDigitCh ≠ [] then none
    else some (cs.dropWhile isDigitCh)

/-- Model of `isBadNum`: all-numeric, longer than one digit, leading zero. -/
def isBadNum : List Char → Bool
  | [] => false
  | c :: cs => (c :: cs).all isDigitCh && cs.length > 0 && c = '0'

def validPreId (s : List Char) : Bool :=
  !s.isEmpty && s.all isIdentCh && !(isBadNum s)

def validBuildId (s : List Char) : Bool :=
  !s.isEmpty && s.all isIdentCh

/-- Model of `parsePrerelease` (after the `'-'`): dot-separated identifiers up to an
optional `'+'`; identifiers are nonempty, alphanumeric-or-hyphen, and numeric
ones have no leading zero. Returns the rest from the `'+'` on. -/
def parsePre (v : List Char) : Option (List Char) :=
  let body := v.takeWhile (fun c => c ≠ '+')
  let rest := v.dropWhile (fun c => c ≠ '+')
  if (splitOnChar '.' body).all validPreId then some rest else none

/-- Model of `parseBuild` (after the `'+'`): dot-separated nonempty identifiers to the
end of the string. -/
def parseBuildOk (v : List Char) : Bool :=
  (splitOnChar '.' v).all validBuildId

/-- Model of `semver.IsValid`: `"v"` then major, optional `.minor`, optional `.patch`,
optional `-prerelease`, optional `+build`, nothing left over. -/
def semverIsValid (s : String) : Bool :=
  match s.data with
  | 'v' :: rest =>
    match parseNum rest with
    | none => false
    | some r1 =>
      match r1 with
      | [] => true
      | '.' :: r2 =>
        match parseNum r2 with
        | none => false
        | some r3 =>
          match r3 with
          | [] => true
          | '.' :: r4 =>
            match parseNum r4 with
            | none => false
            | some r5 =>
              match (match r5 with
                     | '-' :: r => parsePre r
                     | _ => some r5) with
              | none => false
              | some r6 =>
                match r6 with
                | [] => true
                | '+' :: r7 => parseBuildOk r7
                | _ => false
          | _ => false
      | _ => false
  | _ => false

/-- The `sort.Slice` comparator of `findLatestRelease` (lines 107-124), with
the external `semver.Compare` as the abstract parameter `cmp`. -/
def releaseLess (cmp : String → String → Int) (a b : Release) : Bool :=
  let tagI := normalizeTag a.tagName
  let tagJ := normalizeTag b.tagName
  if semverIsValid tagI && semverIsValid tagJ then cmp tagI tagJ > 0
  else if semverIsValid tagI && !(semverIsValid tagJ) then true
  else if !(semverIsValid tagI) && semverIsValid tagJ then false
  else a.publishedAt > b.publishedAt

/-- Insert into a list so that the comparator's "comes before" relation is
respected. -/
def insertLess {α : Type} (less : α → α → Bool) (x : α) : List α → List α
  | [] => [x]
  | y :: ys => if less x y then x :: y :: ys else y :: insertLess less x ys

/-- A sort with the given "comes before" comparator, modelling the
(algorithm-unspecified) `sort.Slice`. -/
def sortLess {α : Type} (less : α → α → Bool) : List α → List α
  | [] => []
  | x :: xs => insertLess less x (sortLess less xs)

/-- Model of `findLatestRelease` (lines 98-127): a single release is returned as is,
otherwise the slice is sorted by the comparator and the first element is
returned; `none` models the `panic` on an empty slice. -/
def findLatestRelease (cmp : String → String → Int) : List Release → Option Release
  | [] => none
  | [r] => some r
  | r1 :: r2 :: rest => (sortLess (releaseLess cmp) (r1 :: r2 :: rest)).head?

/-- Model of `LatestStable` after the HTTP and JSON layers (lines 75-86): filter to
stable releases, error (`none`) when none remain, else pick the latest. -/
def latestStable (cmp : String → String → Int) (releases : List Release) : Option Release :=
  let stable := filterStableReleases releases
  if stable.isEmpty then none else findLatestRelease cmp stable

/-! ## Configuration and installer URL logic -/

/-- Model of `Config.GetDownloadURL` (`src/unnamed/part_006` lines 72-77); the
repository-URL argument is unused by the source as well. -/
def getDownloadURL (mirrorURL _repoURL assetURL : String) : String :=
  if mirrorURL = "" then assetURL
  else mirrorURL ++ "/" ++ assetURL

/-- The download-URL choice of `installRepo` (`src/unnamed/part_004` lines
86-95): the original asset URL whenever the Google reachability probe
succeeds, the mirror-rewritten URL only when it fails. The probe result is a
parameter because it is a network effect. -/
def installDownloadURL (pingOK : Bool) (mirrorURL repoURL assetURL : String) : String :=
  if pingOK then assetURL
  else getDownloadURL mirrorURL repoURL assetURL

/-! ## A cancel-aware loop, modelled from the spec (for claim C4) -/

/-- Extraction-or-cancellation error for the spec-modelled loop. -/
inductive CancelErr
  | cancelled
  | entry (w : WrappedErr)
deriving DecidableEq, Repr

/-- Modelled from the spec: "the engine must check it at entry boundaries
(before starting each new entry)" and "stop before entry N+1 begins and
surface `Cancelled`" — no such check exists in the source
(`OptimizedExtractor.Extract` receives no context), so this loop is built
from the spec's words for comparison. `budget` is the number of entries after
which the cancellation signal is raised. -/
def extractTarEntriesCancelAware (dst : String) :
    Nat → FS → List TarEntry → FS × Option CancelErr
  | _, fs, [] => (fs, none)
  | 0, fs, _ :: _ => (fs, some .cancelled)
  | Nat.succ n, fs, e :: es =>
    match extractTarEntryM dst fs e with
    | .ok fs2 => extractTarEntriesCancelAware dst n fs2 es
    | .error err => (fs, some (.entry ⟨e.name, err⟩))

/-- The claim-side admission predicate: `p` is the root itself or a strict
segment-aligned descendant of it (for lexically cleaned paths, `root ++ "/"`
being a raw prefix of `p` is exactly segment alignment). -/
def segmentWithin (root p : String) : Bool :=
  p = root || strStartsWith p (root ++ "/")

deriving instance DecidableEq for Except
/-- Returns `true` for the outcomes an archive of directories and regular files (and
skipped `"."` entries) produces. -/
def dirFileOrSkip (o : EntryOutcome) : Bool :=
  match o with
  | .mkdirAll _ _ => true
  | .writeFile _ _ _ => true
  | .skipped => true
  | _ => false

/-- Run a list of already-decided outcomes against the filesystem, stopping
at the first failure: the common core of the tar and zip entry loops, with
the error detail dropped. -/
def applyOutcomes (fs : FS) : List EntryOutcome → Option FS
  | [] => some fs
  | o :: os =>
    match applyOutcome fs o with
    | .ok g => applyOutcomes g os
    | .error _ => none

/-- The write-target paths of a list of outcomes. -/
def outcomeWritePaths (os : List EntryOutcome) : List String :=
  os.filterMap (fun o =>
    match o with
    | .writeFile p _ _ => some p
    | _ => none)


/-! ## Theorems -/

theorem splitOnChar_ne_nil (sep : Char) (l : List Char) : splitOnChar sep l ≠ [] := by
  cases l with
  | nil => simp [splitOnChar]
  | cons c cs =>
    simp only [splitOnChar]
    split
    · simp
    · match h : splitOnChar sep cs with
      | [] => simp
      | s :: ss => simp

theorem splitOnChar_append_sep (sep : Char) (xs ys : List Char) :
    splitOnChar sep (xs ++ sep :: ys) = splitOnChar sep xs ++ splitOnChar sep ys := by
  induction xs with
  | nil => simp [splitOnChar]
  | cons c cs ih =>
    by_cases hc : c = sep
    · simp only [List.cons_append, splitOnChar, if_pos hc]
      exact congrArg (List.cons []) ih
    · have hne := splitOnChar_ne_nil sep cs
      cases h : splitOnChar sep cs with
      | nil => exact absurd h hne
      | cons s ss =>
        simp only [List.cons_append, splitOnChar, if_neg hc, List.append_eq]
        rw [ih, h]
        rfl

theorem cleanStack_append (rooted : Bool) (xs ys : List (List Char)) (stack : List (List Char)) :
    cleanStack rooted stack (xs ++ ys) = cleanStack rooted (cleanStack rooted stack xs) ys := by
  induction xs generalizing stack with
  | nil => simp [cleanStack]
  | cons seg rest ih =>
    simp only [List.cons_append, cleanStack]
    split
    · exact ih stack
    · split
      · cases stack with
        | nil =>
          simp only []
          split
          · exact ih []
          · exact ih [['.', '.']]
        | cons top stk =>
          simp only []
          split
          · exact ih _
          · exact ih stk
      · exact ih _

example : filepathClean "/a/b/../c" = "/a/c" := by decide

example : filepathClean "a/.." = "." := by decide

example : filepathClean "../x" = "../x" := by decide

example : filepathClean "/.." = "/" := by decide

example : filepathClean "" = "." := by decide

example : filepathClean "/" = "/" := by decide

example : filepathJoin "/dst" "../dst-evil/x" = "/dst-evil/x" := by decide

example : filepathJoin "/d" "a" = "/d/a" := by decide

example : filepathJoin "" "" = "" := by decide

example : filepathDir "/dst/link" = "/dst" := by decide

example : filepathDir "a" = "." := by decide

example : strStartsWith "/dst-evil/x" "/dst" = true := by decide

/-! ### `Clean` is idempotent

`filepath.Join` already returns a `Clean`ed path and the extractors apply
`filepath.Clean` to it again, so relating the two needs idempotence of the
lexical canonicalization. -/

theorem not_mem_splitOnChar (sep : Char) (l : List Char) :
    ∀ s ∈ splitOnChar sep l, sep ∉ s := by
  induction l with
  | nil => intro s hs; simp [splitOnChar] at hs; simp [hs]
  | cons c cs ih =>
    intro s hs
    simp only [splitOnChar] at hs
    by_cases hc : c = sep
    · rw [if_pos hc] at hs
      rcases List.mem_cons.mp hs with h | h
      · simp [h]
      · exact ih s h
    · rw [if_neg hc] at hs
      have hne := splitOnChar_ne_nil sep cs
      cases h : splitOnChar sep cs with
      | nil => exact absurd h hne
      | cons t ts =>
        rw [h] at hs
        rcases List.mem_cons.mp hs with h1 | h1
        · subst h1
          intro hmem
          rcases List.mem_cons.mp hmem with h2 | h2
          · exact hc h2.symm
          · exact ih t (h ▸ List.mem_cons_self t ts) h2
        · exact ih s (h ▸ List.mem_cons_of_mem t h1)

theorem splitOnChar_nosep (sep : Char) (s : List Char) (h : sep ∉ s) :
    splitOnChar sep s = [s] := by
  induction s with
  | nil => rfl
  | cons c cs ih =>
    have hc : c ≠ sep := fun hcc => h (hcc ▸ List.mem_cons_self c cs)
    have hcs : sep ∉ cs := fun hmem => h (List.mem_cons_of_mem c hmem)
    simp only [splitOnChar, if_neg hc, ih hcs]

theorem splitOnChar_joinSegs (parts : List (List Char)) (hne : parts ≠ [])
    (h : ∀ s ∈ parts, '/' ∉ s) : splitOnChar '/' (joinSegs parts) = parts := by
  induction parts with
  | nil => exact absurd rfl hne
  | cons s rest ih =>
    cases rest with
    | nil =>
      simp only [joinSegs]
      exact splitOnChar_nosep '/' s (h s (List.mem_cons_self s []))
    | cons r rs =>
      have : joinSegs (s :: r :: rs) = s ++ '/' :: joinSegs (r :: rs) := rfl
      rw [this, splitOnChar_append_sep,
        splitOnChar_nosep '/' s (h s (List.mem_cons_self _ _)),
        ih (by simp) (fun t ht => h t (List.mem_cons_of_mem s ht))]
      rfl

theorem stackOK_nil (rooted : Bool) : stackOK rooted [] :=
  ⟨by simp, trivial, by simp⟩

theorem cleanStack_stackOK (rooted : Bool) (segs : List (List Char)) :
    ∀ stack, stackOK rooted stack → (∀ s ∈ segs, '/' ∉ s) →
      stackOK rooted (cleanStack rooted stack segs) := by
  induction segs with
  | nil => intro stack hok _; exact hok
  | cons seg rest ih =>
    intro stack hok hsep
    have hsepRest : ∀ s ∈ rest, '/' ∉ s := fun s hs => hsep s (List.mem_cons_of_mem seg hs)
    have hsepSeg : '/' ∉ seg := hsep seg (List.mem_cons_self _ _)
    simp only [cleanStack]
    split
    · exact ih stack hok hsepRest
    · rename_i hskip
      split
      · rename_i hdd
        cases stack with
        | nil =>
          simp only []
          split
          · exact ih [] (stackOK_nil rooted) hsepRest
          · rename_i hrooted
            refine ih [['.', '.']] ⟨?_, ?_, ?_⟩ hsepRest
            · intro s hs
              simp only [List.mem_singleton] at hs
              subst hs
              refine ⟨by simp, by simp, by simp⟩
            · exact ⟨fun _ t ht => absurd ht (List.not_mem_nil t), trivial⟩
            · intro hr
              exact absurd hr hrooted
        | cons top stk =>
          simp only []
          split
          · rename_i htop
            -- push ".." on top of a ".."-run
            refine ih _ ⟨?_, ?_, ?_⟩ hsepRest
            · intro s hs
              rcases List.mem_cons.mp hs with h1 | h1
              · subst h1; subst hdd
                refine ⟨by simp, by simp, hsepSeg⟩
              · exact hok.1 s h1
            · refine ⟨?_, hok.2.1⟩
              intro _ t ht
              rcases List.mem_cons.mp ht with h1 | h1
              · exact h1 ▸ htop
              · exact (hok.2.1.1 htop) t h1
            · intro hr s hs
              exact absurd (hok.2.2 hr top (List.mem_cons_self _ _)) (by simp [htop])
          · -- pop
            refine ih stk ⟨?_, hok.2.1.2, ?_⟩ hsepRest
            · intro s hs
              exact hok.1 s (List.mem_cons_of_mem top hs)
            · intro hr s hs
              exact hok.2.2 hr s (List.mem_cons_of_mem top hs)
      · rename_i hdd
        -- push an ordinary segment
        refine ih _ ⟨?_, ?_, ?_⟩ hsepRest
        · intro s hs
          rcases List.mem_cons.mp hs with h1 | h1
          · subst h1
            push_neg at hskip
            exact ⟨hskip.1, hskip.2, hsepSeg⟩
          · exact hok.1 s h1
        · exact ⟨fun hs => absurd hs hdd, hok.2.1⟩
        · intro hr s hs
          rcases List.mem_cons.mp hs with h1 | h1
          · exact h1 ▸ hdd
          · exact hok.2.2 hr s h1

theorem cleanStack_reverse_fix (rooted : Bool) :
    ∀ stack, stackOK rooted stack → cleanStack rooted [] stack.reverse = stack := by
  intro stack
  induction stack with
  | nil => intro _; rfl
  | cons s stk ih =>
    intro hok
    have hstk : stackOK rooted stk :=
      ⟨fun t ht => hok.1 t (List.mem_cons_of_mem s ht), hok.2.1.2,
        fun hr t ht => hok.2.2 hr t (List.mem_cons_of_mem s ht)⟩
    have hgood := hok.1 s (List.mem_cons_self _ _)
    rw [List.reverse_cons, cleanStack_append, ih hstk]
    simp only [cleanStack]
    rw [if_neg (by push_neg; exact ⟨hgood.1, hgood.2.1⟩)]
    by_cases hdd : s = ['.', '.']
    · rw [if_pos hdd]
      have hddrun : ∀ t ∈ stk, t = ['.', '.'] := hok.2.1.1 hdd
      cases hrooted : rooted with
      | true => exact absurd (hok.2.2 hrooted s (List.mem_cons_self _ _)) (by simp [hdd])
      | false =>
        cases stk with
        | nil => simp [cleanStack, hdd]
        | cons top rest =>
          simp only []
          rw [if_pos (hddrun top (List.mem_cons_self _ _))]
    · rw [if_neg hdd]

theorem cleanChars_ne_nil (p : List Char) : cleanChars p ≠ [] := by
  match p with
  | [] => simp [cleanChars]
  | c :: rest =>
    simp only [cleanChars, renderSegs]
    split
    · simp
    · split
      · simp
      · rename_i hne
        cases h : (cleanStack _ [] (splitOnChar '/' (c :: rest))).reverse with
        | nil => exact absurd h hne
        | cons q qs =>
          cases qs with
          | nil =>
            simp only [joinSegs]
            intro hq
            -- q is a stack member, hence nonempty
            have hok := cleanStack_stackOK (c = '/') (splitOnChar '/' (c :: rest)) []
              (stackOK_nil _) (not_mem_splitOnChar '/' (c :: rest))
            have hmem : q ∈ cleanStack (decide (c = '/')) [] (splitOnChar '/' (c :: rest)) := by
              have : q ∈ (cleanStack (decide (c = '/')) [] (splitOnChar '/' (c :: rest))).reverse := by
                rw [h]; exact List.mem_singleton.mpr rfl
              exact List.mem_reverse.mp this
            exact (hok.1 q hmem).1 hq
          | cons r rs => simp [joinSegs]

theorem splitOnChar_sep_cons (sep : Char) (t : List Char) :
    splitOnChar sep (sep :: t) = [] :: splitOnChar sep t := by
  simp [splitOnChar]

theorem cleanStack_nil_seg (rooted : Bool) (stack rest : List (List Char)) :
    cleanStack rooted stack ([] :: rest) = cleanStack rooted stack rest := by
  simp [cleanStack]

theorem joinSegs_cons_of_ne_nil (s : List Char) (qs : List (List Char)) (h : qs ≠ []) :
    joinSegs (s :: qs) = s ++ '/' :: joinSegs qs := by
  cases qs with
  | nil => exact absurd rfl h
  | cons r rs => rfl

theorem cleanChars_renderSegs (rooted : Bool) (stack : List (List Char))
    (hok : stackOK rooted stack) :
    cleanChars (renderSegs rooted stack) = renderSegs rooted stack := by
  cases rooted with
  | true =>
    cases stack with
    | nil => decide
    | cons s stk =>
      have hrev : (s :: stk).reverse ≠ [] := by simp
      have hmem : ∀ t ∈ (s :: stk).reverse, '/' ∉ t := by
        intro t ht
        exact (hok.1 t (List.mem_reverse.mp ht)).2.2
      have hsplit := splitOnChar_joinSegs _ hrev hmem
      have hfix := cleanStack_reverse_fix true (s :: stk) hok
      show cleanChars ('/' :: joinSegs (s :: stk).reverse) = renderSegs true (s :: stk)
      have hexp : cleanChars ('/' :: joinSegs (s :: stk).reverse) =
          renderSegs (('/' : Char) = '/') (cleanStack (('/' : Char) = '/') []
            (splitOnChar '/' ('/' :: joinSegs (s :: stk).reverse))) := rfl
      rw [hexp, splitOnChar_sep_cons, hsplit]
      have hdec : (decide (('/' : Char) = '/')) = true := by decide
      rw [hdec, cleanStack_nil_seg, hfix]
  | false =>
    cases stack with
    | nil => decide
    | cons s stk =>
      cases hp : (s :: stk).reverse with
      | nil => simp at hp
      | cons q qs =>
        have hqmem : q ∈ (s :: stk) := by
          have : q ∈ (s :: stk).reverse := by rw [hp]; exact List.mem_cons_self _ _
          exact List.mem_reverse.mp this
        have hq := hok.1 q hqmem
        obtain ⟨ch, qt, hqe⟩ : ∃ ch qt, q = ch :: qt := by
          cases q with
          | nil => exact absurd rfl hq.1
          | cons a b => exact ⟨a, b, rfl⟩
        have hch : ch ≠ '/' := by
          intro hcc
          exact hq.2.2 (by rw [hqe, hcc]; exact List.mem_cons_self _ _)
        have hX : ∃ t, joinSegs (q :: qs) = ch :: t := by
          cases qs with
          | nil => exact ⟨qt, by simp [joinSegs, hqe]⟩
          | cons r rs =>
            refine ⟨qt ++ '/' :: joinSegs (r :: rs), ?_⟩
            rw [joinSegs_cons_of_ne_nil q (r :: rs) (by simp), hqe]
            rfl
        obtain ⟨t, ht⟩ := hX
        have hmem : ∀ u ∈ q :: qs, '/' ∉ u := by
          intro u hu
          have : u ∈ (s :: stk).reverse := by rw [hp]; exact hu
          exact (hok.1 u (List.mem_reverse.mp this)).2.2
        have hsplit := splitOnChar_joinSegs (q :: qs) (by simp) hmem
        have hfix := cleanStack_reverse_fix false (s :: stk) hok
        have hrender : renderSegs false (s :: stk) = joinSegs (q :: qs) := by
          simp [renderSegs, hp]
        rw [hrender, ht]
        have hexp : cleanChars (ch :: t) =
            renderSegs (ch = '/') (cleanStack (ch = '/') []
              (splitOnChar '/' (ch :: t))) := rfl
        rw [hexp]
        have hdec : (decide (ch = '/')) = false := decide_eq_false hch
        rw [hdec, ← ht, hsplit, ← hp, hfix, hp]
        exact hrender

theorem cleanChars_idem (p : List Char) : cleanChars (cleanChars p) = cleanChars p := by
  cases p with
  | nil => decide
  | cons c rest =>
    have h : cleanChars (c :: rest) =
        renderSegs (c = '/') (cleanStack (c = '/') [] (splitOnChar '/' (c :: rest))) := rfl
    rw [h]
    exact cleanChars_renderSegs _ _
      (cleanStack_stackOK _ _ [] (stackOK_nil _) (not_mem_splitOnChar '/' (c :: rest)))

/-! ### Joining `"."` or `"./"` leaves the cleaned path unchanged -/

theorem cleanStack_dot_seg (rooted : Bool) (stack : List (List Char)) :
    cleanStack rooted stack [['.']] = stack := by
  simp [cleanStack]

theorem cleanStack_dot_nil_seg (rooted : Bool) (stack : List (List Char)) :
    cleanStack rooted stack [['.'], []] = stack := by
  simp [cleanStack]

theorem cleanChars_append_dot (c : Char) (t : List Char) :
    cleanChars ((c :: t) ++ '/' :: ['.']) = cleanChars (c :: t) := by
  have hexp : cleanChars ((c :: t) ++ '/' :: ['.']) =
      renderSegs (c = '/') (cleanStack (c = '/') []
        (splitOnChar '/' ((c :: t) ++ '/' :: ['.']))) := rfl
  rw [hexp, splitOnChar_append_sep, cleanStack_append]
  have h1 : splitOnChar '/' ['.'] = [['.']] := rfl
  rw [h1, cleanStack_dot_seg]
  rfl

theorem cleanChars_append_dotslash (c : Char) (t : List Char) :
    cleanChars ((c :: t) ++ '/' :: ['.', '/']) = cleanChars (c :: t) := by
  have hexp : cleanChars ((c :: t) ++ '/' :: ['.', '/']) =
      renderSegs (c = '/') (cleanStack (c = '/') []
        (splitOnChar '/' ((c :: t) ++ '/' :: ['.', '/']))) := rfl
  rw [hexp, splitOnChar_append_sep, cleanStack_append]
  have h1 : splitOnChar '/' ['.', '/'] = [['.'], []] := rfl
  rw [h1, cleanStack_dot_nil_seg]
  rfl

theorem cleanChars_joinChars_dot (a : List Char) :
    cleanChars (joinChars a ['.']) = cleanChars a := by
  cases a with
  | nil => decide
  | cons c t =>
    have hj : joinChars (c :: t) ['.'] = cleanChars ((c :: t) ++ '/' :: ['.']) := by
      simp [joinChars]
    rw [hj, cleanChars_idem, cleanChars_append_dot]

theorem cleanChars_joinChars_dotslash (a : List Char) :
    cleanChars (joinChars a ['.', '/']) = cleanChars a := by
  cases a with
  | nil => decide
  | cons c t =>
    have hj : joinChars (c :: t) ['.', '/'] = cleanChars ((c :: t) ++ '/' :: ['.', '/']) := by
      simp [joinChars]
    rw [hj, cleanChars_idem, cleanChars_append_dotslash]

theorem filepathClean_join_dot (dst : String) :
    filepathClean (filepathJoin dst ".") = filepathClean dst := by
  show String.mk (cleanChars (joinChars dst.data ['.'])) = String.mk (cleanChars dst.data)
  rw [cleanChars_joinChars_dot]

theorem filepathClean_join_dotslash (dst : String) :
    filepathClean (filepathJoin dst "./") = filepathClean dst := by
  show String.mk (cleanChars (joinChars dst.data ['.', '/'])) = String.mk (cleanChars dst.data)
  rw [cleanChars_joinChars_dotslash]

/-! ## Claim theorems -/

/-- C3: sniffing a prefix shorter than 4 bytes yields the distinct
truncated-input error (in `detectFormat` the "file too small" error, in the
optimized path the peek failure), never the unknown-format outcome; a prefix
starting `0x1F 0x8B` is tar.gz, one starting `"PK\x03\x04"` is zip, and any
other 4-byte-or-longer prefix is the unsupported-format error. -/
theorem c3_format_sniffing :
    (∀ data : List Nat, data.length < 4 →
        detectFormat data = .error "file too small to detect format" ∧
        optimizedSniff data = .error "failed to peek archive data") ∧
    (∀ b2 b3 : Nat, ∀ rest : List Nat,
        detectFormat (0x1f :: 0x8b :: b2 :: b3 :: rest) = .ok "tar.gz" ∧
        optimizedSniff (0x1f :: 0x8b :: b2 :: b3 :: rest) = .ok "tar.gz") ∧
    (∀ rest : List Nat,
        detectFormat (80 :: 75 :: 3 :: 4 :: rest) = .ok "zip" ∧
        optimizedSniff (80 :: 75 :: 3 :: 4 :: rest) = .ok "zip") ∧
    (∀ b0 b1 b2 b3 : Nat, ∀ rest : List Nat,
        ¬(b0 = 0x1f ∧ b1 = 0x8b) → ¬(b0 = 80 ∧ b1 = 75 ∧ b2 = 3 ∧ b3 = 4) →
        detectFormat (b0 :: b1 :: b2 :: b3 :: rest) = .error "unknown archive format" ∧
        optimizedSniff (b0 :: b1 :: b2 :: b3 :: rest) =
          .error "unsupported archive format") ∧
    ("file too small to detect format" ≠ "unknown archive format" ∧
      "failed to peek archive data" ≠ "unsupported archive format") := by
  refine ⟨?_, ?_, ?_, ?_, by decide, by decide⟩
  · intro data h
    exact ⟨by simp [detectFormat, h], by simp [optimizedSniff, h]⟩
  · intro b2 b3 rest
    exact ⟨by simp [detectFormat], by simp [optimizedSniff, detectFormatFromBytes]⟩
  · intro rest
    exact ⟨by simp [detectFormat], by simp [optimizedSniff, detectFormatFromBytes]⟩
  · intro b0 b1 b2 b3 rest h1 h2
    have hlen : ¬ (b0 :: b1 :: b2 :: b3 :: rest).length < 4 := by simp
    constructor
    · simp only [detectFormat, List.getD_cons_zero, List.getD_cons_succ]
      rw [if_neg hlen, if_neg h1, if_neg h2]
    · simp only [optimizedSniff]
      rw [if_neg hlen]
      have htake : (b0 :: b1 :: b2 :: b3 :: rest).take 4 = [b0, b1, b2, b3] := rfl
      rw [htake]
      simp only [detectFormatFromBytes, List.getD_cons_zero, List.getD_cons_succ]
      rw [if_neg (by simp : ¬([b0, b1, b2, b3] : List Nat).length < 4), if_neg h1, if_neg h2]
      simp

/-- C3 witness: the theorem applied at concrete prefixes. -/
theorem c3_format_sniffing_witness :
    (detectFormat [0x1f, 0x8b] = .error "file too small to detect format") ∧
    (detectFormat [0x1f, 0x8b, 8, 0] = .ok "tar.gz") ∧
    (detectFormat [80, 75, 3, 4, 9] = .ok "zip") ∧
    (detectFormat [1, 2, 3, 4] = .error "unknown archive format") ∧
    (optimizedSniff [1, 2, 3, 4] = .error "unsupported archive format") :=
  ⟨(c3_format_sniffing.1 [0x1f, 0x8b] (by decide)).1,
    (c3_format_sniffing.2.1 8 0 []).1,
    (c3_format_sniffing.2.2.1 [9]).1,
    (c3_format_sniffing.2.2.2.1 1 2 3 4 [] (by decide) (by decide)).1,
    (c3_format_sniffing.2.2.2.1 1 2 3 4 [] (by decide) (by decide)).2⟩

/-- C9 counterexample: with a mirror configured but the reachability probe
succeeding, `installRepo` uses the original asset URL unchanged instead of
the mirror-rewritten URL the claim requires. -/
theorem c9_counterexample :
    installDownloadURL true "https://mirror.example" "https://github.com/o/r"
        "https://a.example/x.tar.gz" = "https://a.example/x.tar.gz" ∧
    installDownloadURL true "https://mirror.example" "https://github.com/o/r"
        "https://a.example/x.tar.gz" ≠
      "https://mirror.example" ++ "/" ++ "https://a.example/x.tar.gz" := by
  exact ⟨rfl, by decide⟩

/-- C9 (amended): `GetDownloadURL` applies the mirror as prefix-plus-slash
when one is configured, but `installRepo` consults it only when the Google
reachability probe fails; when the probe succeeds, or no mirror is
configured, the asset URL is used unchanged. -/
theorem c9_mirror_url (pingOK : Bool) (mirrorURL repoURL assetURL : String) :
    (pingOK = true →
      installDownloadURL pingOK mirrorURL repoURL assetURL = assetURL) ∧
    (mirrorURL = "" →
      installDownloadURL pingOK mirrorURL repoURL assetURL = assetURL) ∧
    (pingOK = false → mirrorURL ≠ "" →
      installDownloadURL pingOK mirrorURL repoURL assetURL =
        mirrorURL ++ "/" ++ assetURL) ∧
    getDownloadURL mirrorURL repoURL assetURL =
      (if mirrorURL = "" then assetURL else mirrorURL ++ "/" ++ assetURL) := by
  refine ⟨?_, ?_, ?_, rfl⟩
  · intro h; simp [installDownloadURL, h]
  · intro h; simp [installDownloadURL, getDownloadURL, h]
  · intro hp hm; simp [installDownloadURL, getDownloadURL, hp, hm]

/-- C9 witness: the amended theorem applied with the probe failing and a
mirror configured, and with no mirror configured. -/
theorem c9_mirror_url_witness :
    installDownloadURL false "https://m.example" "r" "https://a/x.zip" =
      "https://m.example" ++ "/" ++ "https://a/x.zip" ∧
    installDownloadURL true "https://m.example" "r" "https://a/x.zip" = "https://a/x.zip" ∧
    installDownloadURL false "" "r" "https://a/x.zip" = "https://a/x.zip" :=
  ⟨(c9_mirror_url false "https://m.example" "r" "https://a/x.zip").2.2.1 rfl (by decide),
    (c9_mirror_url true "https://m.example" "r" "https://a/x.zip").1 rfl,
    (c9_mirror_url false "" "r" "https://a/x.zip").2.1 rfl⟩

/-- C10: a nonempty tag without a leading `"v"` gets `"v"` prepended before
validity testing and comparison; the empty tag stays empty and is not valid
semver; `"1.2.3"` normalizes to the valid `"v1.2.3"` and is ordered by the
comparator exactly as `"v1.2.3"` is. -/
theorem c10_normalize_tag :
    (∀ tag : String, tag ≠ "" → strStartsWith tag "v" = false →
        normalizeTag tag = "v" ++ tag) ∧
    (normalizeTag "" = "" ∧ semverIsValid "" = false) ∧
    (normalizeTag "1.2.3" = "v1.2.3" ∧ normalizeTag "v1.2.3" = "v1.2.3" ∧
      semverIsValid (normalizeTag "1.2.3") = true) ∧
    (∀ (cmp : String → String → Int) (d p : Bool) (t : Int) (other : Release),
        releaseLess cmp ⟨"1.2.3", d, p, t⟩ other =
          releaseLess cmp ⟨"v1.2.3", d, p, t⟩ other ∧
        releaseLess cmp other ⟨"1.2.3", d, p, t⟩ =
          releaseLess cmp other ⟨"v1.2.3", d, p, t⟩) := by
  have hnorm : normalizeTag "1.2.3" = normalizeTag "v1.2.3" := by decide
  refine ⟨?_, ⟨by decide, by decide⟩, ⟨by decide, by decide, by decide⟩, ?_⟩
  · intro tag h1 h2
    simp [normalizeTag, h1, h2]
  · intro cmp d p t other
    constructor
    · simp only [releaseLess, hnorm]
    · simp only [releaseLess, hnorm]

/-- C10 witness: the theorem applied to the tag `"1.2.3"`. -/
theorem c10_normalize_tag_witness :
    normalizeTag "1.2.3" = "v" ++ "1.2.3" ∧
    releaseLess (fun _ _ => 0) ⟨"1.2.3", false, false, 0⟩ ⟨"v0.1.0", false, false, 0⟩ =
      releaseLess (fun _ _ => 0) ⟨"v1.2.3", false, false, 0⟩ ⟨"v0.1.0", false, false, 0⟩ :=
  ⟨c10_normalize_tag.1 "1.2.3" (by decide) (by decide),
    (c10_normalize_tag.2.2.2 (fun _ _ => 0) false false 0 ⟨"v0.1.0", false, false, 0⟩).1⟩

/-- C8: an entry named exactly `"."` or `"./"` is skipped — no error, no
filesystem change — and the rest of the archive extracts as if the entry
were absent, for both tar and zip. -/
theorem c8_dot_entries (dst : String) (fs : FS) (e : TarEntry) (z : ZipEntry)
    (rest : List TarEntry) (zrest : List ZipEntry)
    (he : e.name = "." ∨ e.name = "./") (hz : z.name = "." ∨ z.name = "./") :
    tarEntryOutcome dst e = .skipped ∧
    extractTarEntryM dst fs e = .ok fs ∧
    extractTarEntries dst fs (e :: rest) = extractTarEntries dst fs rest ∧
    zipEntryOutcome dst z = .skipped ∧
    extractZipEntryM dst fs z = .ok fs ∧
    extractZipEntries dst fs (z :: zrest) = extractZipEntries dst fs zrest := by
  have ht : tarEntryOutcome dst e = .skipped := by
    simp only [tarEntryOutcome]
    rw [if_pos he.symm]
  have hzo : zipEntryOutcome dst z = .skipped := by
    simp only [zipEntryOutcome]
    rw [if_pos hz.symm]
  have htm : extractTarEntryM dst fs e = .ok fs := by
    simp [extractTarEntryM, ht, applyOutcome]
  have hzm : extractZipEntryM dst fs z = .ok fs := by
    simp [extractZipEntryM, hzo, applyOutcome]
  refine ⟨ht, htm, ?_, hzo, hzm, ?_⟩
  · simp [extractTarEntries, htm]
  · simp [extractZipEntries, hzm]

/-- C8 witness: the theorem applied to a concrete `"./"` tar entry and `"."`
zip entry, plus a concrete archive where the sibling entry of a `"./"` entry
still extracts. -/
theorem c8_dot_entries_witness :
    tarEntryOutcome "/d" ⟨"./", .dir, "", "", 493⟩ = .skipped ∧
    zipEntryOutcome "/d" ⟨".", true, "", 493⟩ = .skipped ∧
    extractTarArchive "/d" [] [⟨"./", .dir, "", "", 493⟩, ⟨"a.txt", .reg, "", "hi", 420⟩] =
      ([("/d", .dir 0o755), ("/d/a.txt", .file "hi" 420)], none) :=
  ⟨(c8_dot_entries "/d" [] ⟨"./", .dir, "", "", 493⟩ ⟨".", true, "", 493⟩ [] []
      (Or.inr rfl) (Or.inl rfl)).1,
    (c8_dot_entries "/d" [] ⟨"./", .dir, "", "", 493⟩ ⟨".", true, "", 493⟩ [] []
      (Or.inr rfl) (Or.inl rfl)).2.2.2.1,
    by decide⟩

/-- C2: the symlink-target check is not performed the way the claim states.
At destination `"/dst"`, a symlink entry `"link"` with target
`"../dst-evil/x"` passes the code's raw-prefix check
(`HasPrefix(Join(dst, target), dst)`), so the link is created — yet the
target, resolved relative to the link's own containing directory as the
claim requires, is `"/dst-evil/x"`, which is neither the root nor a
descendant of it. -/
theorem c2_symlink_escape_admitted :
    tarEntryOutcome "/dst" ⟨"link", .symlink, "../dst-evil/x", "", 511⟩ =
      .makeLink "/dst/link" "../dst-evil/x" ∧
    extractTarArchive "/dst" [] [⟨"link", .symlink, "../dst-evil/x", "", 511⟩] =
      ([("/dst", .dir 0o755), ("/dst/link", .link "../dst-evil/x")], none) ∧
    filepathJoin (filepathDir (filepathJoin "/dst" "link")) "../dst-evil/x" =
      "/dst-evil/x" ∧
    segmentWithin (filepathClean "/dst")
      (filepathJoin (filepathDir (filepathJoin "/dst" "link")) "../dst-evil/x") = false := by
  decide

/-- A path whose cleaned join is neither the root nor a segment-aligned
descendant is not a `"."`/`"./"` name and makes the code's traversal check
fire. -/
theorem rejected_of_not_within (dst name : String)
    (h : segmentWithin (filepathClean dst) (filepathClean (filepathJoin dst name)) = false) :
    ¬(name = "./" ∨ name = ".") ∧
    (!(strStartsWith (filepathClean (filepathJoin dst name)) (filepathClean dst)) ||
      ((filepathClean (filepathJoin dst name) != filepathClean dst) &&
        !(strStartsWith (filepathClean (filepathJoin dst name))
          (filepathClean dst ++ "/")))) = true := by
  rw [segmentWithin, Bool.or_eq_false_iff] at h
  obtain ⟨hne', hpre⟩ := h
  have hne : filepathClean (filepathJoin dst name) ≠ filepathClean dst :=
    of_decide_eq_false hne'
  constructor
  · rintro (h1 | h1)
    · exact hne (h1 ▸ filepathClean_join_dotslash dst)
    · exact hne (h1 ▸ filepathClean_join_dot dst)
  · cases hsp : strStartsWith (filepathClean (filepathJoin dst name)) (filepathClean dst) with
    | false => simp
    | true => simp [hpre, hne]

/-- C1: any entry whose declared path, joined with the destination root and
lexically canonicalized, is neither the root nor a strict segment-aligned
descendant of it, is rejected — the per-entry extraction returns the
invalid-path error and performs no write, mkdir, or symlink creation (the
filesystem state is untouched) — for both tar and zip entries. -/
theorem c1_path_guard (dst : String) (fs : FS) (e : TarEntry) (z : ZipEntry)
    (he : segmentWithin (filepathClean dst) (filepathClean (filepathJoin dst e.name)) = false)
    (hz : segmentWithin (filepathClean dst) (filepathClean (filepathJoin dst z.name)) = false) :
    tarEntryOutcome dst e = .rejectedPath ∧
    extractTarEntryM dst fs e = .error .pathRejected ∧
    zipEntryOutcome dst z = .rejectedPath ∧
    extractZipEntryM dst fs z = .error .pathRejected := by
  obtain ⟨hdotT, hcondT⟩ := rejected_of_not_within dst e.name he
  obtain ⟨hdotZ, hcondZ⟩ := rejected_of_not_within dst z.name hz
  have ht : tarEntryOutcome dst e = .rejectedPath := by
    simp only [tarEntryOutcome]
    rw [if_neg hdotT, if_pos hcondT]
  have hzo : zipEntryOutcome dst z = .rejectedPath := by
    simp only [zipEntryOutcome]
    rw [if_neg hdotZ, if_pos hcondZ]
  exact ⟨ht, by simp [extractTarEntryM, ht, applyOutcome], hzo,
    by simp [extractZipEntryM, hzo, applyOutcome]⟩

/-- C1 witness: the theorem applied with destination `"/dst"` to a tar entry
`"../dst-evil"` (the sibling-with-shared-prefix case) and a zip entry
`"../../etc/passwd"` (the classic traversal case). -/
theorem c1_path_guard_witness :
    segmentWithin (filepathClean "/dst")
      (filepathClean (filepathJoin "/dst" "../dst-evil")) = false ∧
    tarEntryOutcome "/dst" ⟨"../dst-evil", .reg, "", "", 420⟩ = .rejectedPath ∧
    zipEntryOutcome "/dst" ⟨"../../etc/passwd", false, "", 420⟩ = .rejectedPath ∧
    extractTarEntryM "/dst" [] ⟨"../dst-evil", .reg, "", "", 420⟩ = .error .pathRejected :=
  ⟨by decide,
    (c1_path_guard "/dst" [] ⟨"../dst-evil", .reg, "", "", 420⟩
      ⟨"../../etc/passwd", false, "", 420⟩ (by decide) (by decide)).1,
    (c1_path_guard "/dst" [] ⟨"../dst-evil", .reg, "", "", 420⟩
      ⟨"../../etc/passwd", false, "", 420⟩ (by decide) (by decide)).2.2.1,
    (c1_path_guard "/dst" [] ⟨"../dst-evil", .reg, "", "", 420⟩
      ⟨"../../etc/passwd", false, "", 420⟩ (by decide) (by decide)).2.1⟩

/-- Splitting the tar entry loop at a successful prefix. -/
theorem extractTarEntries_append_ok (dst : String) :
    ∀ (es1 : List TarEntry) (fs fs1 : FS),
      extractTarEntries dst fs es1 = (fs1, none) →
      ∀ rest, extractTarEntries dst fs (es1 ++ rest) = extractTarEntries dst fs1 rest := by
  intro es1
  induction es1 with
  | nil =>
    intro fs fs1 h rest
    simp only [extractTarEntries, Prod.mk.injEq] at h
    rw [List.nil_append, h.1]
  | cons e es ih =>
    intro fs fs1 h rest
    simp only [extractTarEntries, List.cons_append] at *
    cases hstep : extractTarEntryM dst fs e with
    | ok fs2 =>
      rw [hstep] at h
      exact ih fs2 fs1 h rest
    | error err =>
      rw [hstep] at h
      simp at h

/-- Splitting the zip entry loop at a successful prefix. -/
theorem extractZipEntries_append_ok (dst : String) :
    ∀ (zs1 : List ZipEntry) (fs fs1 : FS),
      extractZipEntries dst fs zs1 = (fs1, none) →
      ∀ rest, extractZipEntries dst fs (zs1 ++ rest) = extractZipEntries dst fs1 rest := by
  intro zs1
  induction zs1 with
  | nil =>
    intro fs fs1 h rest
    simp only [extractZipEntries, Prod.mk.injEq] at h
    rw [List.nil_append, h.1]
  | cons z zs ih =>
    intro fs fs1 h rest
    simp only [extractZipEntries, List.cons_append] at *
    cases hstep : extractZipEntryM dst fs z with
    | ok fs2 =>
      rw [hstep] at h
      exact ih fs2 fs1 h rest
    | error err =>
      rw [hstep] at h
      simp at h

/-- C7: when one entry fails, the whole extraction aborts right there —
entries after it are not processed — the returned error wraps that entry's
archive-relative name, and the filesystem keeps everything the earlier
entries wrote (no rollback); for both tar and zip loops. -/
theorem c7_abort_wrap_keep (dst : String) (fs fs1 : FS) (es1 es2 : List TarEntry)
    (e : TarEntry) (err : EntryErr)
    (zfs zfs1 : FS) (zs1 zs2 : List ZipEntry) (z : ZipEntry) (zerr : EntryErr)
    (h1 : extractTarEntries dst fs es1 = (fs1, none))
    (h2 : extractTarEntryM dst fs1 e = .error err)
    (h3 : extractZipEntries dst zfs zs1 = (zfs1, none))
    (h4 : extractZipEntryM dst zfs1 z = .error zerr) :
    extractTarEntries dst fs (es1 ++ e :: es2) = (fs1, some ⟨e.name, err⟩) ∧
    extractZipEntries dst zfs (zs1 ++ z :: zs2) = (zfs1, some ⟨z.name, zerr⟩) := by
  constructor
  · rw [extractTarEntries_append_ok dst es1 fs fs1 h1]
    simp [extractTarEntries, h2]
  · rw [extractZipEntries_append_ok dst zs1 zfs zfs1 h3]
    simp [extractZipEntries, h4]

/-- C7 witness: the theorem applied to a concrete archive whose second entry
is a traversal; the first entry's file stays on disk and the error names the
offending entry. -/
theorem c7_abort_wrap_keep_witness :
    extractTarEntries "/d" [("/d", FsNode.dir 0o755)]
        ([⟨"a", .reg, "", "x", 420⟩] ++ ⟨"../evil", .reg, "", "z", 420⟩ ::
          [⟨"b", .reg, "", "y", 420⟩]) =
      ([("/d", FsNode.dir 0o755), ("/d/a", FsNode.file "x" 420)],
        some ⟨"../evil", .pathRejected⟩) ∧
    extractZipEntries "/d" [("/d", FsNode.dir 0o755)]
        ([⟨"a", false, "x", 420⟩] ++ (⟨"../evil", false, "z", 420⟩ : ZipEntry) ::
          [⟨"b", false, "y", 420⟩]) =
      ([("/d", FsNode.dir 0o755), ("/d/a", FsNode.file "x" 420)],
        some ⟨"../evil", .pathRejected⟩) :=
  c7_abort_wrap_keep "/d" [("/d", FsNode.dir 0o755)]
    [("/d", FsNode.dir 0o755), ("/d/a", FsNode.file "x" 420)]
    [⟨"a", .reg, "", "x", 420⟩] [⟨"b", .reg, "", "y", 420⟩]
    ⟨"../evil", .reg, "", "z", 420⟩ .pathRejected
    [("/d", FsNode.dir 0o755)]
    [("/d", FsNode.dir 0o755), ("/d/a", FsNode.file "x" 420)]
    [⟨"a", false, "x", 420⟩] [⟨"b", false, "y", 420⟩]
    ⟨"../evil", false, "z", 420⟩ .pathRejected
    (by decide) (by decide) (by decide) (by decide)

/-- C4 counterexample: with the cancellation signal raised after 1 of 2
entries, the engine modelled from the source still materializes entry 2 and
returns success — no `Cancelled` surfaces and extraction does not stop
before entry N+1 — while the loop modelled from the spec's words stops at
the boundary with `Cancelled`. -/
theorem c4_counterexample :
    extractTarArchive "/d" [] [⟨"a", .reg, "", "x", 420⟩, ⟨"b", .reg, "", "y", 420⟩] =
      ([("/d", FsNode.dir 0o755), ("/d/a", FsNode.file "x" 420),
        ("/d/b", FsNode.file "y" 420)], none) ∧
    extractTarEntriesCancelAware "/d" 1 [("/d", FsNode.dir 0o755)]
        [⟨"a", .reg, "", "x", 420⟩, ⟨"b", .reg, "", "y", 420⟩] =
      ([("/d", FsNode.dir 0o755), ("/d/a", FsNode.file "x" 420)], some .cancelled) := by
  decide

/-- After a successful prefix of `n` entries, the spec-modelled loop with the
signal raised after `n` entries stops with `Cancelled` before the next
entry. -/
theorem cancelAware_stops (dst : String) :
    ∀ (es1 : List TarEntry) (fs fs1 : FS),
      extractTarEntries dst fs es1 = (fs1, none) →
      ∀ (e2 : TarEntry) (es2 : List TarEntry),
        extractTarEntriesCancelAware dst es1.length fs (es1 ++ e2 :: es2) =
          (fs1, some .cancelled) := by
  intro es1
  induction es1 with
  | nil =>
    intro fs fs1 h e2 es2
    simp only [extractTarEntries, Prod.mk.injEq] at h
    rw [List.nil_append, List.length_nil, ← h.1]
    rfl
  | cons e es ih =>
    intro fs fs1 h e2 es2
    simp only [extractTarEntries] at h
    cases hstep : extractTarEntryM dst fs e with
    | ok fs2 =>
      rw [hstep] at h
      have := ih fs2 fs1 h e2 es2
      simp only [List.cons_append, List.length_cons, extractTarEntriesCancelAware, hstep]
      exact this
    | error err =>
      rw [hstep] at h
      simp at h

/-- C4 (amended): the extraction engine receives no cancellation signal and
checks none at entry boundaries — after a cancellation raised at the N-of-M
boundary, the remaining entries are still processed and no `Cancelled`
surfaces (the run ends in success with all entries materialized), whereas
the entry-boundary check the spec mandates stops with `Cancelled` before
entry N+1. -/
theorem c4_no_cancellation_check (dst : String) (fs fs1 fs2 : FS)
    (es1 es2 : List TarEntry) (e2 : TarEntry)
    (h1 : extractTarEntries dst fs es1 = (fs1, none))
    (h2 : extractTarEntries dst fs1 (e2 :: es2) = (fs2, none)) :
    extractTarEntries dst fs (es1 ++ e2 :: es2) = (fs2, none) ∧
    extractTarEntriesCancelAware dst es1.length fs (es1 ++ e2 :: es2) =
      (fs1, some .cancelled) := by
  constructor
  · rw [extractTarEntries_append_ok dst es1 fs fs1 h1]
    exact h2
  · exact cancelAware_stops dst es1 fs fs1 h1 e2 es2

/-- C4 witness: the amended theorem applied to a concrete two-entry archive
with the signal raised after entry 1. -/
theorem c4_no_cancellation_check_witness :
    extractTarEntries "/d" [("/d", FsNode.dir 0o755)]
        ([⟨"a", .reg, "", "x", 420⟩] ++ ⟨"b", .reg, "", "y", 420⟩ :: []) =
      ([("/d", FsNode.dir 0o755), ("/d/a", FsNode.file "x" 420),
        ("/d/b", FsNode.file "y" 420)], none) ∧
    extractTarEntriesCancelAware "/d" 1
        [("/d", FsNode.dir 0o755)]
        ([⟨"a", .reg, "", "x", 420⟩] ++ ⟨"b", .reg, "", "y", 420⟩ :: []) =
      ([("/d", FsNode.dir 0o755), ("/d/a", FsNode.file "x" 420)], some .cancelled) :=
  c4_no_cancellation_check "/d" [("/d", FsNode.dir 0o755)]
    [("/d", FsNode.dir 0o755), ("/d/a", FsNode.file "x" 420)]
    [("/d", FsNode.dir 0o755), ("/d/a", FsNode.file "x" 420),
      ("/d/b", FsNode.file "y" 420)]
    [⟨"a", .reg, "", "x", 420⟩] [] ⟨"b", .reg, "", "y", 420⟩
    (by decide) (by decide)

theorem mem_insertLess {α : Type} (less : α → α → Bool) (x a : α) :
    ∀ l, a ∈ insertLess less x l ↔ a = x ∨ a ∈ l := by
  intro l
  induction l with
  | nil => simp [insertLess]
  | cons y ys ih =>
    simp only [insertLess]
    split
    · simp [List.mem_cons]
    · simp only [List.mem_cons, ih]
      tauto

theorem mem_sortLess {α : Type} (less : α → α → Bool) (a : α) :
    ∀ l, a ∈ sortLess less l ↔ a ∈ l := by
  intro l
  induction l with
  | nil => simp [sortLess]
  | cons x xs ih => simp [sortLess, mem_insertLess, ih]

theorem sortLess_head_mem {α : Type} (less : α → α → Bool) (l : List α) (h : α)
    (hh : (sortLess less l).head? = some h) : h ∈ l := by
  refine (mem_sortLess less h l).mp ?_
  cases hs : sortLess less l with
  | nil => rw [hs] at hh; simp at hh
  | cons a as =>
    rw [hs] at hh
    simp only [List.head?_cons, Option.some.injEq] at hh
    rw [← hh]
    exact List.mem_cons_self a as

/-- The head of the sorted list is maximal: nothing in the input is strictly
above it, provided the comparator is asymmetric and transitive. -/
theorem sortLess_head_max {α : Type} (less : α → α → Bool)
    (hasym : ∀ a b, less a b = true → less b a = false)
    (htrans : ∀ a b c, less a b = true → less b c = true → less a c = true) :
    ∀ (l : List α) (h : α), (sortLess less l).head? = some h →
      ∀ r ∈ l, less r h = false := by
  have hirr : ∀ a, less a a = false := by
    intro a
    cases hl : less a a with
    | false => rfl
    | true => exact absurd (hasym a a hl) (by simp [hl])
  intro l
  induction l with
  | nil => intro h hh r hr; simp [sortLess] at hh
  | cons x xs ih =>
    intro h hh r hr
    simp only [sortLess] at hh
    cases hs : sortLess less xs with
    | nil =>
      rw [hs] at hh
      simp only [insertLess, List.head?_cons, Option.some.injEq] at hh
      subst hh
      rcases List.mem_cons.mp hr with h1 | h1
      · subst h1; exact hirr _
      · exfalso
        have : r ∈ sortLess less xs := (mem_sortLess less r xs).mpr h1
        rw [hs] at this
        simp at this
    | cons y ys =>
      rw [hs] at hh
      have hymax : ∀ r' ∈ xs, less r' y = false := by
        intro r' hr'
        exact ih y (by rw [hs]; rfl) r' hr'
      simp only [insertLess] at hh
      by_cases hxy : less x y = true
      · rw [if_pos hxy] at hh
        simp only [List.head?_cons, Option.some.injEq] at hh
        subst hh
        rcases List.mem_cons.mp hr with h1 | h1
        · subst h1; exact hirr _
        · cases hrx : less r x with
          | false => rfl
          | true => exact absurd (htrans r x y hrx hxy) (by simp [hymax r h1])
      · rw [if_neg hxy] at hh
        simp only [List.head?_cons, Option.some.injEq] at hh
        subst hh
        rcases List.mem_cons.mp hr with h1 | h1
        · subst h1
          exact Bool.not_eq_true _ |>.mp hxy
        · exact hymax r h1

/-- The comparator of `findLatestRelease` is asymmetric whenever
`semver.Compare`'s strict order is. -/
theorem releaseLess_asymm (cmp : String → String → Int)
    (hasym : ∀ a b : String, cmp a b > 0 → ¬ cmp b a > 0) :
    ∀ a b : Release, releaseLess cmp a b = true → releaseLess cmp b a = false := by
  intro a b h
  simp only [releaseLess] at h ⊢
  cases hva : semverIsValid (normalizeTag a.tagName) <;>
    cases hvb : semverIsValid (normalizeTag b.tagName) <;> simp_all
  all_goals first
    | omega
    | exact hasym _ _ h

/-- The comparator of `findLatestRelease` is transitive whenever
`semver.Compare`'s strict order is. -/
theorem releaseLess_trans (cmp : String → String → Int)
    (htrans : ∀ a b c : String, cmp a b > 0 → cmp b c > 0 → cmp a c > 0) :
    ∀ a b c : Release, releaseLess cmp a b = true → releaseLess cmp b c = true →
      releaseLess cmp a c = true := by
  intro a b c h1 h2
  simp only [releaseLess] at h1 h2 ⊢
  cases hva : semverIsValid (normalizeTag a.tagName) <;>
    cases hvb : semverIsValid (normalizeTag b.tagName) <;>
      cases hvc : semverIsValid (normalizeTag c.tagName) <;> simp_all
  all_goals first
    | omega
    | exact htrans _ _ _ h1 h2

/-- C5: for any comparison with the strict-order properties that
`semver.Compare` has, the release finder returns a release that is among the
non-draft, non-prerelease ones and is maximal for the source's ordering —
semantic-version comparison when both (normalized) tags are valid semver,
publish-timestamp ordering when neither is, and valid-semver tags ranking
above non-semver tags in mixed comparisons (`releaseLess`). -/
theorem c5_latest_stable (cmp : String → String → Int)
    (hasym : ∀ a b : String, cmp a b > 0 → ¬ cmp b a > 0)
    (htrans : ∀ a b c : String, cmp a b > 0 → cmp b c > 0 → cmp a c > 0)
    (releases : List Release) (m : Release)
    (h : latestStable cmp releases = some m) :
    m ∈ filterStableReleases releases ∧ m.draft = false ∧ m.prerelease = false ∧
    ∀ r ∈ filterStableReleases releases, releaseLess cmp r m = false := by
  have hA := releaseLess_asymm cmp hasym
  have hT := releaseLess_trans cmp htrans
  have hirr : ∀ a : Release, releaseLess cmp a a = false := by
    intro a
    cases hl : releaseLess cmp a a with
    | false => rfl
    | true => exact absurd (hA a a hl) (by simp [hl])
  have hstab : ∀ x : Release, x ∈ filterStableReleases releases →
      x.draft = false ∧ x.prerelease = false := by
    intro x hx
    have hp := (List.mem_filter.mp hx).2
    simp only [Bool.and_eq_true, Bool.not_eq_true'] at hp
    exact hp
  simp only [latestStable] at h
  by_cases hemp : (filterStableReleases releases).isEmpty
  · rw [if_pos hemp] at h
    exact absurd h (by simp)
  · rw [if_neg hemp] at h
    cases hstable : filterStableReleases releases with
    | nil => rw [hstable] at h; simp [findLatestRelease] at h
    | cons r1 rest =>
      cases rest with
      | nil =>
        rw [hstable] at h
        simp only [findLatestRelease, Option.some.injEq] at h
        subst h
        have hm1 : r1 ∈ filterStableReleases releases := by
          rw [hstable]; exact List.mem_cons_self _ _
        refine ⟨List.mem_cons_self _ _, (hstab _ hm1).1, (hstab _ hm1).2, ?_⟩
        intro r hr
        rcases List.mem_cons.mp hr with h1 | h1
        · subst h1; exact hirr _
        · simp at h1
      | cons r2 rest2 =>
        rw [hstable] at h
        simp only [findLatestRelease] at h
        have hmemL : m ∈ r1 :: r2 :: rest2 :=
          sortLess_head_mem (releaseLess cmp) (r1 :: r2 :: rest2) m h
        have hmemF : m ∈ filterStableReleases releases := by
          rw [hstable]; exact hmemL
        have hmax := sortLess_head_max (releaseLess cmp) hA hT (r1 :: r2 :: rest2) m h
        exact ⟨hmemL, (hstab m hmemF).1, (hstab m hmemF).2, fun r hr => hmax r hr⟩

/-- C5 witness: the theorem applied with a concrete strict-order comparison
(by tag length) and a three-release list with one prerelease. -/
theorem c5_latest_stable_witness :
    (⟨"v10.0.0", false, false, 1⟩ : Release) ∈
      filterStableReleases
        [⟨"v1.0.0", false, false, 5⟩, ⟨"beta", false, true, 9⟩,
          ⟨"v10.0.0", false, false, 1⟩] ∧
    releaseLess (fun a b => (a.length : Int) - b.length)
      ⟨"v1.0.0", false, false, 5⟩ ⟨"v10.0.0", false, false, 1⟩ = false := by
  have h := c5_latest_stable (fun a b => (a.length : Int) - b.length)
    (by intro a b h1; dsimp only at h1 ⊢; omega)
    (by intro a b c h1 h2; dsimp only at h1 h2 ⊢; omega)
    [⟨"v1.0.0", false, false, 5⟩, ⟨"beta", false, true, 9⟩, ⟨"v10.0.0", false, false, 1⟩]
    ⟨"v10.0.0", false, false, 1⟩ (by decide)
  exact ⟨h.1, h.2.2.2 ⟨"v1.0.0", false, false, 5⟩ (by decide)⟩

/-! ### Filesystem lemmas for idempotence (claim C6) -/

theorem fsLookup_update (fs : FS) (p q : String) (n : FsNode) :
    fsLookup (fsUpdate fs p n) q = if p = q then some n else fsLookup fs q := by
  induction fs with
  | nil =>
    simp only [fsUpdate, fsLookup]
  | cons head rest ih =>
    obtain ⟨a, b⟩ := head
    simp only [fsUpdate]
    by_cases hap : a = p
    · subst hap
      simp only [if_pos rfl, fsLookup]
      by_cases haq : a = q <;> simp [haq]
    · rw [if_neg hap]
      simp only [fsLookup, ih]
      by_cases haq : a = q
      · subst haq
        have hpq : p ≠ a := fun h => hap h.symm
        simp [hpq]
      · simp [haq]

theorem fsUpdate_self (fs : FS) (p : String) (n : FsNode)
    (h : fsLookup fs p = some n) : fsUpdate fs p n = fs := by
  induction fs with
  | nil => simp [fsLookup] at h
  | cons head rest ih =>
    obtain ⟨a, b⟩ := head
    simp only [fsLookup] at h
    simp only [fsUpdate]
    by_cases hap : a = p
    · rw [if_pos hap] at h
      rw [if_pos hap]
      simp only [Option.some.injEq] at h
      rw [h]
    · rw [if_neg hap] at h
      rw [if_neg hap, ih h]

/-- The function `mkdirChain` never touches an existing entry: it only inserts fresh
directories at absent keys (and errors instead of replacing anything). -/
theorem mkdirChain_preserves_lookup (perm : Nat) :
    ∀ (qs : List String) (fs g : FS), mkdirChain perm fs qs = .ok g →
      ∀ p n, fsLookup fs p = some n → fsLookup g p = some n := by
  intro qs
  induction qs with
  | nil =>
    intro fs g h p n hp
    simp only [mkdirChain, Except.ok.injEq] at h
    rw [← h]; exact hp
  | cons q rest ih =>
    intro fs g h p n hp
    simp only [mkdirChain] at h
    cases hq : fsLookup fs q with
    | some node =>
      cases node with
      | dir m => rw [hq] at h; exact ih fs g h p n hp
      | file c m => rw [hq] at h; simp at h
      | link t => rw [hq] at h; simp at h
    | none =>
      rw [hq] at h
      have hqp : q ≠ p := fun he => by rw [he, hp] at hq; exact Option.noConfusion hq
      refine ih _ g h p n ?_
      rw [fsLookup_update, if_neg hqp]
      exact hp

/-- After a successful `mkdirChain`, every path of the chain is a directory. -/
theorem mkdirChain_makes (perm : Nat) :
    ∀ (qs : List String) (fs g : FS), mkdirChain perm fs qs = .ok g →
      ∀ q ∈ qs, ∃ m, fsLookup g q = some (.dir m) := by
  intro qs
  induction qs with
  | nil => intro fs g h q hq; simp at hq
  | cons q0 rest ih =>
    intro fs g h q hq
    simp only [mkdirChain] at h
    cases hq0 : fsLookup fs q0 with
    | some node =>
      cases node with
      | dir m =>
        rw [hq0] at h
        rcases List.mem_cons.mp hq with h1 | h1
        · subst h1
          exact ⟨m, mkdirChain_preserves_lookup perm rest fs g h q _ hq0⟩
        · exact ih fs g h q h1
      | file c m => rw [hq0] at h; simp at h
      | link t => rw [hq0] at h; simp at h
    | none =>
      rw [hq0] at h
      rcases List.mem_cons.mp hq with h1 | h1
      · subst h1
        refine ⟨perm, mkdirChain_preserves_lookup perm rest _ g h q _ ?_⟩
        rw [fsLookup_update]
        simp
      · exact ih _ g h q h1

/-- Running `mkdirChain` over already-existing directories changes nothing. -/
theorem mkdirChain_noop (perm : Nat) :
    ∀ (qs : List String) (fs : FS),
      (∀ q ∈ qs, ∃ m, fsLookup fs q = some (.dir m)) →
      mkdirChain perm fs qs = .ok fs := by
  intro qs
  induction qs with
  | nil => intro fs _; rfl
  | cons q rest ih =>
    intro fs hall
    obtain ⟨m, hm⟩ := hall q (List.mem_cons_self _ _)
    simp only [mkdirChain]
    rw [hm]
    exact ih fs (fun q' hq' => hall q' (List.mem_cons_of_mem _ hq'))

/-- Materializing an outcome that is not a write to `p` never disturbs an
existing node at `p`. -/
theorem applyOutcome_preserves (fs g : FS) (o : EntryOutcome)
    (h : applyOutcome fs o = .ok g) (p : String) (n : FsNode)
    (hp : fsLookup fs p = some n)
    (hwr : ∀ c m, o ≠ .writeFile p c m) : fsLookup g p = some n := by
  cases o with
  | skipped =>
    simp only [applyOutcome, Except.ok.injEq] at h
    rw [← h]; exact hp
  | rejectedPath => simp [applyOutcome] at h
  | rejectedLink => simp [applyOutcome] at h
  | mkdirAll q mm =>
    simp only [applyOutcome] at h
    cases hmk : fsMkdirAll fs q mm with
    | ok fs2 =>
      rw [hmk] at h
      simp only [Except.ok.injEq] at h
      rw [← h]
      exact mkdirChain_preserves_lookup mm _ fs fs2 hmk p n hp
    | error e => rw [hmk] at h; simp at h
  | writeFile q c mm =>
    have hqp : q ≠ p := by
      intro he
      exact (hwr c mm) (by rw [he])
    simp only [applyOutcome] at h
    cases hmk : fsMkdirAll fs (filepathDir q) 0o755 with
    | error e => rw [hmk] at h; simp at h
    | ok fs2 =>
      rw [hmk] at h
      dsimp only at h
      have hp2 : fsLookup fs2 p = some n :=
        mkdirChain_preserves_lookup _ _ fs fs2 hmk p n hp
      cases hw : fsWriteFile fs2 q c mm with
      | error e => rw [hw] at h; simp at h
      | ok fs3 =>
        rw [hw] at h
        simp only [Except.ok.injEq] at h
        simp only [fsWriteFile] at hw
        cases hlq : fsLookup fs2 q with
        | some node =>
          cases node with
          | dir m0 => rw [hlq] at hw; simp at hw
          | file c0 m0 =>
            rw [hlq] at hw
            simp only [Except.ok.injEq] at hw
            rw [← h, ← hw, fsLookup_update, if_neg hqp]
            exact hp2
          | link t => rw [hlq] at hw; simp at hw
        | none =>
          rw [hlq] at hw
          simp only [Except.ok.injEq] at hw
          rw [← h, ← hw, fsLookup_update, if_neg hqp]
          exact hp2
  | makeLink q t =>
    simp only [applyOutcome] at h
    cases hs : fsSymlink fs q t with
    | error e => rw [hs] at h; simp at h
    | ok fs2 =>
      rw [hs] at h
      simp only [Except.ok.injEq] at h
      simp only [fsSymlink] at hs
      cases hlq : fsLookup fs q with
      | some node => rw [hlq] at hs; simp at hs
      | none =>
        rw [hlq] at hs
        have hqp : q ≠ p := fun he => by rw [he, hp] at hlq; exact Option.noConfusion hlq
        cases hpar : fsLookup fs (filepathDir q) with
        | some node =>
          cases node with
          | dir m0 =>
            rw [hpar] at hs
            simp only [Except.ok.injEq] at hs
            rw [← h, ← hs, fsLookup_update, if_neg hqp]
            exact hp
          | file c0 m0 => rw [hpar] at hs; simp at hs
          | link t0 => rw [hpar] at hs; simp at hs
        | none => rw [hpar] at hs; simp at hs

/-- A successful per-entry step keeps every existing directory in place. -/
theorem applyOutcome_preserves_dir (fs g : FS) (o : EntryOutcome)
    (h : applyOutcome fs o = .ok g) (p : String) (m : Nat)
    (hp : fsLookup fs p = some (.dir m)) : fsLookup g p = some (.dir m) := by
  by_cases hw : ∃ c mm, o = .writeFile p c mm
  · obtain ⟨c, mm, rfl⟩ := hw
    exfalso
    simp only [applyOutcome] at h
    cases hmk : fsMkdirAll fs (filepathDir p) 0o755 with
    | error e => rw [hmk] at h; simp at h
    | ok fs2 =>
      rw [hmk] at h
      dsimp only at h
      have hp2 : fsLookup fs2 p = some (.dir m) :=
        mkdirChain_preserves_lookup _ _ fs fs2 hmk p _ hp
      cases hwf : fsWriteFile fs2 p c mm with
      | error e => rw [hwf] at h; simp at h
      | ok fs3 =>
        simp only [fsWriteFile, hp2] at hwf
        exact Except.noConfusion hwf
  · push_neg at hw
    exact applyOutcome_preserves fs g o h p _ hp (fun c mm => hw c mm)
/-- C6 counterexample: an archive holding one admissible symlink entry
(target `"a"`, inside the root) extracts fine into an empty destination, but
the second run into the resulting tree fails with the symlink-already-exists
error instead of overwriting — so extracting the same well-formed archive
twice does not succeed, let alone reproduce the same tree. -/
theorem c6_counterexample :
    extractTarArchive "/d" [] [⟨"l", .symlink, "a", "", 511⟩] =
      ([("/d", FsNode.dir 0o755), ("/d/l", FsNode.link "a")], none) ∧
    extractTarArchive "/d" [("/d", FsNode.dir 0o755), ("/d/l", FsNode.link "a")]
        [⟨"l", .symlink, "a", "", 511⟩] =
      ([("/d", FsNode.dir 0o755), ("/d/l", FsNode.link "a")],
        some ⟨"l", .fsFail .alreadyExists⟩) := by
  decide

/-! ### Idempotence machinery for claim C6, at the outcome level -/

theorem fsLookup_eq_none_iff (fs : FS) (p : String) :
    fsLookup fs p = none ↔ p ∉ fs.map Prod.fst := by
  induction fs with
  | nil => simp [fsLookup]
  | cons head rest ih =>
    obtain ⟨a, b⟩ := head
    simp only [fsLookup, List.map_cons, List.mem_cons]
    by_cases hap : a = p
    · simp [hap]
    · have hpa : ¬ p = a := fun h => hap h.symm
      simp [hap, hpa, ih]

/-- Updating at a key that is present keeps the key sequence unchanged. -/
theorem fsUpdate_map_fst_of_mem (fs : FS) (p : String) (v : FsNode)
    (h : fsLookup fs p ≠ none) :
    (fsUpdate fs p v).map Prod.fst = fs.map Prod.fst := by
  induction fs with
  | nil => simp [fsLookup] at h
  | cons head rest ih =>
    obtain ⟨a, b⟩ := head
    simp only [fsUpdate]
    by_cases hap : a = p
    · rw [if_pos hap]; simp
    · rw [if_neg hap]
      simp only [fsLookup, if_neg hap] at h
      simp only [List.map_cons, ih h]

/-- Updating at an absent key appends it at the end. -/
theorem fsUpdate_map_fst_of_none (fs : FS) (p : String) (v : FsNode)
    (h : fsLookup fs p = none) :
    (fsUpdate fs p v).map Prod.fst = fs.map Prod.fst ++ [p] := by
  induction fs with
  | nil => simp [fsUpdate]
  | cons head rest ih =>
    obtain ⟨a, b⟩ := head
    simp only [fsLookup] at h
    by_cases hap : a = p
    · rw [if_pos hap] at h; exact absurd h (by simp)
    · rw [if_neg hap] at h
      simp only [fsUpdate, if_neg hap, List.map_cons, ih h, List.cons_append]

/-- Two filesystems with the same key sequence (without duplicates) and the
same lookups are equal. -/
theorem fs_eq_of_spine_lookup :
    ∀ (g f : FS), g.map Prod.fst = f.map Prod.fst →
      (f.map Prod.fst).Nodup →
      (∀ p, fsLookup g p = fsLookup f p) → g = f := by
  intro g
  induction g with
  | nil =>
    intro f hs _ _
    cases f with
    | nil => rfl
    | cons x xs => simp at hs
  | cons a g2 ih =>
    intro f hs hnd hl
    obtain ⟨ak, av⟩ := a
    cases f with
    | nil => simp at hs
    | cons b f2 =>
      obtain ⟨bk, bv⟩ := b
      simp only [List.map_cons, List.cons.injEq] at hs
      obtain ⟨hk, hs2⟩ := hs
      subst hk
      have hhead := hl ak
      simp only [fsLookup, if_pos rfl] at hhead
      have hv : av = bv := by simpa using hhead
      subst hv
      have hnd2 : (f2.map Prod.fst).Nodup := (List.nodup_cons.mp hnd).2
      have hknotin : ak ∉ f2.map Prod.fst := (List.nodup_cons.mp hnd).1
      refine congrArg (List.cons _) (ih f2 hs2 hnd2 ?_)
      intro p
      by_cases hp : p = ak
      · subst hp
        rw [(fsLookup_eq_none_iff f2 p).mpr hknotin,
          (fsLookup_eq_none_iff g2 p).mpr (by rw [hs2]; exact hknotin)]
      · have hak : ¬ ak = p := fun h => hp h.symm
        have := hl p
        simp only [fsLookup, if_neg hak] at this
        exact this

theorem fsUpdate_keys_nodup (fs : FS) (p : String) (v : FsNode)
    (h : (fs.map Prod.fst).Nodup) : ((fsUpdate fs p v).map Prod.fst).Nodup := by
  cases hl : fsLookup fs p with
  | some n =>
    rw [fsUpdate_map_fst_of_mem fs p v (by rw [hl]; simp)]
    exact h
  | none =>
    rw [fsUpdate_map_fst_of_none fs p v hl]
    have hpn : p ∉ fs.map Prod.fst := (fsLookup_eq_none_iff fs p).mp hl
    simp only [List.nodup_append, List.nodup_cons]
    refine ⟨h, by simp, ?_⟩
    intro a ha
    simp only [List.mem_singleton]
    intro he
    exact hpn (he ▸ ha)

theorem mkdirChain_keys_nodup (perm : Nat) :
    ∀ (qs : List String) (fs g : FS), mkdirChain perm fs qs = .ok g →
      (fs.map Prod.fst).Nodup → (g.map Prod.fst).Nodup := by
  intro qs
  induction qs with
  | nil =>
    intro fs g h hw
    simp only [mkdirChain, Except.ok.injEq] at h
    rw [← h]; exact hw
  | cons q rest ih =>
    intro fs g h hw
    simp only [mkdirChain] at h
    cases hq : fsLookup fs q with
    | some node =>
      cases node with
      | dir m => rw [hq] at h; exact ih fs g h hw
      | file c m => rw [hq] at h; simp at h
      | link t => rw [hq] at h; simp at h
    | none =>
      rw [hq] at h
      exact ih _ g h (fsUpdate_keys_nodup fs q _ hw)

/-- A successful `fsWriteFile` is an update at the target key. -/
theorem fsWriteFile_eq_update (fs g : FS) (q c : String) (mm : Nat)
    (h : fsWriteFile fs q c mm = .ok g) : ∃ v, g = fsUpdate fs q v := by
  simp only [fsWriteFile] at h
  cases hlq : fsLookup fs q with
  | some node =>
    cases node with
    | dir m0 => rw [hlq] at h; simp at h
    | file c0 m0 =>
      rw [hlq] at h
      simp only [Except.ok.injEq] at h
      exact ⟨.file c m0, h.symm⟩
    | link t => rw [hlq] at h; simp at h
  | none =>
    rw [hlq] at h
    simp only [Except.ok.injEq] at h
    exact ⟨.file c mm, h.symm⟩

theorem applyOutcome_keys_nodup (fs g : FS) (o : EntryOutcome)
    (h : applyOutcome fs o = .ok g)
    (hw : (fs.map Prod.fst).Nodup) : (g.map Prod.fst).Nodup := by
  cases o with
  | skipped =>
    simp only [applyOutcome, Except.ok.injEq] at h
    rw [← h]; exact hw
  | rejectedPath => simp [applyOutcome] at h
  | rejectedLink => simp [applyOutcome] at h
  | mkdirAll q mm =>
    simp only [applyOutcome] at h
    cases hmk : fsMkdirAll fs q mm with
    | ok fs2 =>
      rw [hmk] at h
      simp only [Except.ok.injEq] at h
      rw [← h]
      exact mkdirChain_keys_nodup mm _ fs fs2 hmk hw
    | error e => rw [hmk] at h; simp at h
  | writeFile q c mm =>
    simp only [applyOutcome] at h
    cases hmk : fsMkdirAll fs (filepathDir q) 0o755 with
    | error e => rw [hmk] at h; simp at h
    | ok fs2 =>
      rw [hmk] at h
      dsimp only at h
      cases hwf : fsWriteFile fs2 q c mm with
      | error e => rw [hwf] at h; simp at h
      | ok fs3 =>
        rw [hwf] at h
        simp only [Except.ok.injEq] at h
        obtain ⟨v, hv⟩ := fsWriteFile_eq_update fs2 fs3 q c mm hwf
        rw [← h, hv]
        exact fsUpdate_keys_nodup fs2 q v
          (mkdirChain_keys_nodup _ _ fs fs2 hmk hw)
  | makeLink q t =>
    simp only [applyOutcome] at h
    cases hs : fsSymlink fs q t with
    | error e => rw [hs] at h; simp at h
    | ok fs2 =>
      rw [hs] at h
      simp only [Except.ok.injEq] at h
      simp only [fsSymlink] at hs
      cases hlq : fsLookup fs q with
      | some node => rw [hlq] at hs; simp at hs
      | none =>
        rw [hlq] at hs
        cases hpar : fsLookup fs (filepathDir q) with
        | some node =>
          cases node with
          | dir m0 =>
            rw [hpar] at hs
            simp only [Except.ok.injEq] at hs
            rw [← h, ← hs]
            exact fsUpdate_keys_nodup fs q _ hw
          | file c0 m0 => rw [hpar] at hs; simp at hs
          | link t0 => rw [hpar] at hs; simp at hs
        | none => rw [hpar] at hs; simp at hs

theorem applyOutcomes_keys_nodup :
    ∀ (os : List EntryOutcome) (fs g : FS), applyOutcomes fs os = some g →
      (fs.map Prod.fst).Nodup → (g.map Prod.fst).Nodup := by
  intro os
  induction os with
  | nil =>
    intro fs g h hw
    simp only [applyOutcomes, Option.some.injEq] at h
    rw [← h]; exact hw
  | cons o rest ih =>
    intro fs g h hw
    simp only [applyOutcomes] at h
    cases hstep : applyOutcome fs o with
    | ok fs2 =>
      rw [hstep] at h
      exact ih fs2 g h (applyOutcome_keys_nodup fs fs2 o hstep hw)
    | error e => rw [hstep] at h; simp at h

theorem fsWriteFile_preserves_dir (fs g : FS) (q c : String) (mm : Nat)
    (h : fsWriteFile fs q c mm = .ok g) (p : String) (m : Nat)
    (hp : fsLookup fs p = some (.dir m)) : fsLookup g p = some (.dir m) := by
  simp only [fsWriteFile] at h
  cases hlq : fsLookup fs q with
  | some node =>
    cases node with
    | dir m0 => rw [hlq] at h; simp at h
    | file c0 m0 =>
      rw [hlq] at h
      simp only [Except.ok.injEq] at h
      have hqp : q ≠ p := by
        intro he
        rw [he, hp] at hlq
        simp at hlq
      rw [← h, fsLookup_update, if_neg hqp]
      exact hp
    | link t => rw [hlq] at h; simp at h
  | none =>
    rw [hlq] at h
    simp only [Except.ok.injEq] at h
    have hqp : q ≠ p := by
      intro he
      rw [he, hp] at hlq
      exact Option.noConfusion hlq
    rw [← h, fsLookup_update, if_neg hqp]
    exact hp

theorem fsWriteFile_sets_file (fs g : FS) (q c : String) (mm : Nat)
    (h : fsWriteFile fs q c mm = .ok g) :
    ∃ m, fsLookup g q = some (.file c m) := by
  simp only [fsWriteFile] at h
  cases hlq : fsLookup fs q with
  | some node =>
    cases node with
    | dir m0 => rw [hlq] at h; simp at h
    | file c0 m0 =>
      rw [hlq] at h
      simp only [Except.ok.injEq] at h
      refine ⟨m0, ?_⟩
      rw [← h, fsLookup_update]
      simp
    | link t => rw [hlq] at h; simp at h
  | none =>
    rw [hlq] at h
    simp only [Except.ok.injEq] at h
    refine ⟨mm, ?_⟩
    rw [← h, fsLookup_update]
    simp

theorem applyOutcomes_preserves_dir :
    ∀ (os : List EntryOutcome) (fs g : FS), applyOutcomes fs os = some g →
      ∀ p m, fsLookup fs p = some (.dir m) → fsLookup g p = some (.dir m) := by
  intro os
  induction os with
  | nil =>
    intro fs g h p m hp
    simp only [applyOutcomes, Option.some.injEq] at h
    rw [← h]; exact hp
  | cons o rest ih =>
    intro fs g h p m hp
    simp only [applyOutcomes] at h
    cases hstep : applyOutcome fs o with
    | ok fs2 =>
      rw [hstep] at h
      exact ih fs2 g h p m (applyOutcome_preserves_dir fs fs2 o hstep p m hp)
    | error e => rw [hstep] at h; simp at h

/-- A successful step can change an existing regular file's content (when it
writes that very path) but never its mode or its being a file. -/
theorem applyOutcome_preserves_fileShape (fs g : FS) (o : EntryOutcome)
    (h : applyOutcome fs o = .ok g) (p c : String) (m : Nat)
    (hp : fsLookup fs p = some (.file c m)) :
    ∃ c2, fsLookup g p = some (.file c2 m) := by
  by_cases hw : ∃ c' mm, o = .writeFile p c' mm
  · obtain ⟨c', mm, rfl⟩ := hw
    simp only [applyOutcome] at h
    cases hmk : fsMkdirAll fs (filepathDir p) 0o755 with
    | error e => rw [hmk] at h; simp at h
    | ok fs2 =>
      rw [hmk] at h
      dsimp only at h
      cases hwf : fsWriteFile fs2 p c' mm with
      | error e => rw [hwf] at h; simp at h
      | ok fs3 =>
        rw [hwf] at h
        simp only [Except.ok.injEq] at h
        have hp2 : fsLookup fs2 p = some (.file c m) :=
          mkdirChain_preserves_lookup _ _ fs fs2 hmk p _ hp
        simp only [fsWriteFile, hp2] at hwf
        simp only [Except.ok.injEq] at hwf
        refine ⟨c', ?_⟩
        rw [← h, ← hwf, fsLookup_update]
        simp
  · push_neg at hw
    exact ⟨c, applyOutcome_preserves fs g o h p _ hp (fun c' mm heq => hw c' mm heq)⟩

theorem applyOutcomes_preserves_fileShape :
    ∀ (os : List EntryOutcome) (fs g : FS), applyOutcomes fs os = some g →
      ∀ p c m, fsLookup fs p = some (.file c m) →
        ∃ c2, fsLookup g p = some (.file c2 m) := by
  intro os
  induction os with
  | nil =>
    intro fs g h p c m hp
    simp only [applyOutcomes, Option.some.injEq] at h
    exact ⟨c, by rw [← h]; exact hp⟩
  | cons o rest ih =>
    intro fs g h p c m hp
    simp only [applyOutcomes] at h
    cases hstep : applyOutcome fs o with
    | ok fs2 =>
      rw [hstep] at h
      obtain ⟨c2, hc2⟩ := applyOutcome_preserves_fileShape fs fs2 o hstep p c m hp
      exact ih fs2 g h p c2 m hc2
    | error e => rw [hstep] at h; simp at h

/-- A run none of whose outcomes writes `p` keeps a regular file at `p`
byte-for-byte. -/
theorem applyOutcomes_preserves_file :
    ∀ (os : List EntryOutcome) (fs g : FS), applyOutcomes fs os = some g →
      ∀ p c m, fsLookup fs p = some (.file c m) →
        (∀ o ∈ os, ∀ c' m', o ≠ .writeFile p c' m') →
        fsLookup g p = some (.file c m) := by
  intro os
  induction os with
  | nil =>
    intro fs g h p c m hp _
    simp only [applyOutcomes, Option.some.injEq] at h
    rw [← h]; exact hp
  | cons o rest ih =>
    intro fs g h p c m hp hnw
    simp only [applyOutcomes] at h
    cases hstep : applyOutcome fs o with
    | ok fs2 =>
      rw [hstep] at h
      refine ih fs2 g h p c m ?_ (fun o' ho' => hnw o' (List.mem_cons_of_mem _ ho'))
      exact applyOutcome_preserves fs fs2 o hstep p _ hp
        (fun c' m' => hnw o (List.mem_cons_self _ _) c' m')
    | error e => rw [hstep] at h; simp at h

theorem outcomeWritePaths_cons_write (q c : String) (mm : Nat) (os : List EntryOutcome) :
    outcomeWritePaths (.writeFile q c mm :: os) = q :: outcomeWritePaths os := by
  simp [outcomeWritePaths, List.filterMap_cons]

theorem outcomeWritePaths_cons_mkdir (q : String) (mm : Nat) (os : List EntryOutcome) :
    outcomeWritePaths (.mkdirAll q mm :: os) = outcomeWritePaths os := by
  simp [outcomeWritePaths, List.filterMap_cons]

theorem outcomeWritePaths_cons_skipped (os : List EntryOutcome) :
    outcomeWritePaths (.skipped :: os) = outcomeWritePaths os := by
  simp [outcomeWritePaths, List.filterMap_cons]

/-- A successful run contains no rejection outcome (they always error). -/
theorem applyOutcomes_no_reject :
    ∀ (os : List EntryOutcome) (fs g : FS), applyOutcomes fs os = some g →
      ∀ o ∈ os, o ≠ .rejectedPath ∧ o ≠ .rejectedLink := by
  intro os
  induction os with
  | nil => intro fs g h o ho; simp at ho
  | cons o0 rest ih =>
    intro fs g h o ho
    simp only [applyOutcomes] at h
    cases hstep : applyOutcome fs o0 with
    | ok fs2 =>
      rw [hstep] at h
      rcases List.mem_cons.mp ho with h1 | h1
      · subst h1
        constructor
        · intro he; rw [he] at hstep; simp [applyOutcome] at hstep
        · intro he; rw [he] at hstep; simp [applyOutcome] at hstep
      · exact ih fs2 g h o h1
    | error e => rw [hstep] at h; simp at h

/-- A zip entry's decided outcome is always a directory creation, a file
write, a skip, or a path rejection — never a symlink. -/
theorem zipOutcome_shape (dst : String) (z : ZipEntry) :
    dirFileOrSkip (zipEntryOutcome dst z) = true ∨
      zipEntryOutcome dst z = .rejectedPath := by
  simp only [zipEntryOutcome]
  split
  · left; rfl
  · split
    · right; rfl
    · split
      · left; rfl
      · left; rfl

theorem write_mem_outcomeWritePaths (os : List EntryOutcome) (p c : String) (m : Nat)
    (h : EntryOutcome.writeFile p c m ∈ os) : p ∈ outcomeWritePaths os := by
  simp only [outcomeWritePaths, List.mem_filterMap]
  exact ⟨.writeFile p c m, h, rfl⟩

/-- Replay lemma: if a run of directory/file/skip outcomes produced `fs1`
(from any start), then running the same outcomes over any filesystem that
agrees with `fs1` except possibly at still-to-be-written file paths (same
mode, both regular files) reproduces `fs1` exactly. -/
theorem replay_outcomes (fs1 : FS) (hwf : (fs1.map Prod.fst).Nodup) :
    ∀ (os : List EntryOutcome) (fsi g : FS),
      applyOutcomes fsi os = some fs1 →
      (∀ o ∈ os, dirFileOrSkip o = true) →
      g.map Prod.fst = fs1.map Prod.fst →
      (∀ p, fsLookup g p = fsLookup fs1 p ∨
        (p ∈ outcomeWritePaths os ∧
          ∃ c c' m, fsLookup g p = some (.file c m) ∧
            fsLookup fs1 p = some (.file c' m))) →
      applyOutcomes g os = some fs1 := by
  intro os
  induction os with
  | nil =>
    intro fsi g _ _ hs hinv
    have hall : ∀ p, fsLookup g p = fsLookup fs1 p := by
      intro p
      rcases hinv p with h1 | ⟨h1, _⟩
      · exact h1
      · simp [outcomeWritePaths] at h1
    have hge : g = fs1 := fs_eq_of_spine_lookup g fs1 hs hwf hall
    simp [applyOutcomes, hge]
  | cons o rest ih =>
    intro fsi g h hk hs hinv
    simp only [applyOutcomes] at h
    cases hstep : applyOutcome fsi o with
    | error e => rw [hstep] at h; simp at h
    | ok fsj =>
      rw [hstep] at h
      cases o with
      | rejectedPath => simpa [dirFileOrSkip] using hk _ (List.mem_cons_self _ _)
      | rejectedLink => simpa [dirFileOrSkip] using hk _ (List.mem_cons_self _ _)
      | makeLink t p => simpa [dirFileOrSkip] using hk _ (List.mem_cons_self _ _)
      | skipped =>
        have hji : fsj = fsi := by
          simp only [applyOutcome, Except.ok.injEq] at hstep
          exact hstep.symm
        subst hji
        have hnext : applyOutcomes g rest = some fs1 := by
          refine ih fsj g h (fun o' ho' => hk o' (List.mem_cons_of_mem _ ho')) hs ?_
          intro p
          rcases hinv p with h1 | ⟨h1, h2⟩
          · exact Or.inl h1
          · rw [outcomeWritePaths_cons_skipped] at h1
            exact Or.inr ⟨h1, h2⟩
        simp only [applyOutcomes, applyOutcome]
        exact hnext
      | mkdirAll q mm =>
        simp only [applyOutcome] at hstep
        cases hmk : fsMkdirAll fsi q mm with
        | error e => rw [hmk] at hstep; simp at hstep
        | ok fsj2 =>
          rw [hmk] at hstep
          simp only [Except.ok.injEq] at hstep
          subst hstep
          -- every chain directory exists in fs1, hence (invariant) in g
          have hdirs1 : ∀ a ∈ ancestorPaths q, ∃ m, fsLookup fs1 a = some (.dir m) := by
            intro a ha
            obtain ⟨m, hm⟩ := mkdirChain_makes mm (ancestorPaths q) fsi fsj2 hmk a ha
            exact ⟨m, applyOutcomes_preserves_dir rest fsj2 fs1 h a m hm⟩
          have hdirsg : ∀ a ∈ ancestorPaths q, ∃ m, fsLookup g a = some (.dir m) := by
            intro a ha
            obtain ⟨m, hm⟩ := hdirs1 a ha
            rcases hinv a with h1 | ⟨_, c, c', m', _, hf1⟩
            · exact ⟨m, by rw [h1]; exact hm⟩
            · rw [hf1] at hm; simp at hm
          have hgstep : fsMkdirAll g q mm = .ok g :=
            mkdirChain_noop mm (ancestorPaths q) g hdirsg
          have hnext : applyOutcomes g rest = some fs1 := by
            refine ih fsj2 g h (fun o' ho' => hk o' (List.mem_cons_of_mem _ ho')) hs ?_
            intro p
            rcases hinv p with h1 | ⟨h1, h2⟩
            · exact Or.inl h1
            · rw [outcomeWritePaths_cons_mkdir] at h1
              exact Or.inr ⟨h1, h2⟩
          simp only [applyOutcomes, applyOutcome, hgstep]
          exact hnext
      | writeFile q c mm =>
        simp only [applyOutcome] at hstep
        cases hmk : fsMkdirAll fsi (filepathDir q) 0o755 with
        | error e => rw [hmk] at hstep; simp at hstep
        | ok fsp =>
          rw [hmk] at hstep
          dsimp only at hstep
          cases hw : fsWriteFile fsp q c mm with
          | error e => rw [hw] at hstep; simp at hstep
          | ok fsj2 =>
            rw [hw] at hstep
            simp only [Except.ok.injEq] at hstep
            subst hstep
            -- chain directories reach fs1 and hence g
            have hdirs1 : ∀ a ∈ ancestorPaths (filepathDir q),
                ∃ m, fsLookup fs1 a = some (.dir m) := by
              intro a ha
              obtain ⟨m, hm⟩ :=
                mkdirChain_makes 0o755 (ancestorPaths (filepathDir q)) fsi fsp hmk a ha
              have hm2 := fsWriteFile_preserves_dir fsp fsj2 q c mm hw a m hm
              exact ⟨m, applyOutcomes_preserves_dir rest fsj2 fs1 h a m hm2⟩
            have hdirsg : ∀ a ∈ ancestorPaths (filepathDir q),
                ∃ m, fsLookup g a = some (.dir m) := by
              intro a ha
              obtain ⟨m, hm⟩ := hdirs1 a ha
              rcases hinv a with h1 | ⟨_, c1, c1', m', _, hf1⟩
              · exact ⟨m, by rw [h1]; exact hm⟩
              · rw [hf1] at hm; simp at hm
            have hgmk : fsMkdirAll g (filepathDir q) 0o755 = .ok g :=
              mkdirChain_noop 0o755 (ancestorPaths (filepathDir q)) g hdirsg
            -- after the write, q is a regular file of mode m0 everywhere
            obtain ⟨m0, hjq⟩ := fsWriteFile_sets_file fsp fsj2 q c mm hw
            obtain ⟨cf, hf1q⟩ :=
              applyOutcomes_preserves_fileShape rest fsj2 fs1 h q c m0 hjq
            have hgq : ∃ c0, fsLookup g q = some (.file c0 m0) := by
              rcases hinv q with h1 | ⟨_, c1, c1', m', hg1, hf1⟩
              · exact ⟨cf, by rw [h1]; exact hf1q⟩
              · rw [hf1q] at hf1
                simp only [Option.some.injEq, FsNode.file.injEq] at hf1
                exact ⟨c1, by rw [hg1, hf1.2]⟩
            obtain ⟨c0, hgq⟩ := hgq
            have hgw : fsWriteFile g q c mm = .ok (fsUpdate g q (.file c m0)) := by
              simp only [fsWriteFile, hgq]
            have hgqne : fsLookup g q ≠ none := by rw [hgq]; simp
            have hs2 : (fsUpdate g q (.file c m0)).map Prod.fst = fs1.map Prod.fst := by
              rw [fsUpdate_map_fst_of_mem g q _ hgqne]; exact hs
            have hnext : applyOutcomes (fsUpdate g q (.file c m0)) rest = some fs1 := by
              refine ih fsj2 (fsUpdate g q (.file c m0)) h
                (fun o' ho' => hk o' (List.mem_cons_of_mem _ ho')) hs2 ?_
              intro p
              by_cases hpq : p = q
              · subst hpq
                have hup : fsLookup (fsUpdate g p (.file c m0)) p = some (.file c m0) := by
                  rw [fsLookup_update]; simp
                by_cases hmem : p ∈ outcomeWritePaths rest
                · exact Or.inr ⟨hmem, c, cf, m0, hup, hf1q⟩
                · left
                  have hnw : ∀ o' ∈ rest, ∀ c' m', o' ≠ .writeFile p c' m' := by
                    intro o' ho' c' m' he
                    exact hmem (write_mem_outcomeWritePaths rest p c' m'
                      (he ▸ ho'))
                  have hkeep := applyOutcomes_preserves_file rest fsj2 fs1 h p c m0 hjq hnw
                  rw [hup, hkeep]
              · have hqp : q ≠ p := fun he => hpq he.symm
                have hup : fsLookup (fsUpdate g q (.file c m0)) p = fsLookup g p := by
                  rw [fsLookup_update, if_neg hqp]
                rcases hinv p with h1 | ⟨h1, h2⟩
                · exact Or.inl (by rw [hup]; exact h1)
                · rw [outcomeWritePaths_cons_write] at h1
                  rcases List.mem_cons.mp h1 with he | he
                  · exact absurd he hpq
                  · obtain ⟨c1, c1', m', hg1, hf1⟩ := h2
                    exact Or.inr ⟨he, c1, c1', m', by rw [hup]; exact hg1, hf1⟩
            simp only [applyOutcomes, applyOutcome, hgmk]
            rw [hgw]
            exact hnext

/-- The tar entry loop succeeds with result `g` exactly when replaying the
entries' decided outcomes does. -/
theorem extractTarEntries_iff_applyOutcomes (dst : String) :
    ∀ (es : List TarEntry) (fs g : FS),
      extractTarEntries dst fs es = (g, none) ↔
        applyOutcomes fs (es.map (tarEntryOutcome dst)) = some g := by
  intro es
  induction es with
  | nil =>
    intro fs g
    simp [extractTarEntries, applyOutcomes]
  | cons e rest ih =>
    intro fs g
    simp only [extractTarEntries, extractTarEntryM, List.map_cons, applyOutcomes]
    cases hstep : applyOutcome fs (tarEntryOutcome dst e) with
    | ok fs2 => exact ih fs2 g
    | error err => simp

/-- The zip entry loop succeeds with result `g` exactly when replaying the
entries' decided outcomes does. -/
theorem extractZipEntries_iff_applyOutcomes (dst : String) :
    ∀ (zs : List ZipEntry) (fs g : FS),
      extractZipEntries dst fs zs = (g, none) ↔
        applyOutcomes fs (zs.map (zipEntryOutcome dst)) = some g := by
  intro zs
  induction zs with
  | nil =>
    intro fs g
    simp [extractZipEntries, applyOutcomes]
  | cons z rest ih =>
    intro fs g
    simp only [extractZipEntries, extractZipEntryM, List.map_cons, applyOutcomes]
    cases hstep : applyOutcome fs (zipEntryOutcome dst z) with
    | ok fs2 => exact ih fs2 g
    | error err => simp

/-- The whole tar extraction, root creation included, as an outcome replay. -/
theorem extractTarArchive_iff_applyOutcomes (dst : String) (es : List TarEntry)
    (fs g : FS) :
    extractTarArchive dst fs es = (g, none) ↔
      applyOutcomes fs (.mkdirAll dst 0o755 :: es.map (tarEntryOutcome dst)) = some g := by
  simp only [extractTarArchive, applyOutcomes, applyOutcome]
  cases hmk : fsMkdirAll fs dst 0o755 with
  | ok fs2 => exact extractTarEntries_iff_applyOutcomes dst es fs2 g
  | error e => simp

/-- The whole zip extraction, root creation included, as an outcome replay. -/
theorem extractZipArchive_iff_applyOutcomes (dst : String) (zs : List ZipEntry)
    (fs g : FS) :
    extractZipArchive dst fs zs = (g, none) ↔
      applyOutcomes fs (.mkdirAll dst 0o755 :: zs.map (zipEntryOutcome dst)) = some g := by
  simp only [extractZipArchive, applyOutcomes, applyOutcome]
  cases hmk : fsMkdirAll fs dst 0o755 with
  | ok fs2 => exact extractZipEntries_iff_applyOutcomes dst zs fs2 g
  | error e => simp

/-- C6: extracting one archive of directory, regular-file and skipped entries
(duplicate write paths allowed) twice into the same initially-empty destination
ends in the identical tree both times, for the tar loop and the zip loop
alike: the second run recreates each directory as a no-op and rewrites each
file with content drawn from the same archive. Symlink entries are the sole
exception (see the counterexample): `os.Symlink` fails with `EEXIST` on the
second pass. Zip entries need no typing hypothesis, since their decided
outcomes are only ever directory creations, file writes or skips. -/
theorem c6_idempotent_dir_file (dst : String) (es : List TarEntry) (zs : List ZipEntry)
    (fs1 zfs1 : FS)
    (hk : ∀ e ∈ es, dirFileOrSkip (tarEntryOutcome dst e) = true)
    (h1 : extractTarArchive dst [] es = (fs1, none))
    (hz1 : extractZipArchive dst [] zs = (zfs1, none)) :
    extractTarArchive dst fs1 es = (fs1, none) ∧
      extractZipArchive dst zfs1 zs = (zfs1, none) := by
  have main : ∀ (os : List EntryOutcome) (f1 : FS),
      applyOutcomes [] os = some f1 →
      (∀ o ∈ os, dirFileOrSkip o = true) →
      applyOutcomes f1 os = some f1 := by
    intro os f1 hrun hks
    have hwf : (f1.map Prod.fst).Nodup :=
      applyOutcomes_keys_nodup os [] f1 hrun (by simp)
    exact replay_outcomes f1 hwf os [] f1 hrun hks rfl (fun p => Or.inl rfl)
  constructor
  · have hrun := (extractTarArchive_iff_applyOutcomes dst es [] fs1).mp h1
    have hks : ∀ o ∈ (EntryOutcome.mkdirAll dst 0o755 :: es.map (tarEntryOutcome dst)),
        dirFileOrSkip o = true := by
      intro o ho
      rcases List.mem_cons.mp ho with h | h
      · subst h; rfl
      · obtain ⟨e, he, rfl⟩ := List.mem_map.mp h
        exact hk e he
    exact (extractTarArchive_iff_applyOutcomes dst es fs1 fs1).mpr (main _ fs1 hrun hks)
  · have hrun := (extractZipArchive_iff_applyOutcomes dst zs [] zfs1).mp hz1
    have hks : ∀ o ∈ (EntryOutcome.mkdirAll dst 0o755 :: zs.map (zipEntryOutcome dst)),
        dirFileOrSkip o = true := by
      intro o ho
      rcases List.mem_cons.mp ho with h | h
      · subst h; rfl
      · obtain ⟨z, hz, rfl⟩ := List.mem_map.mp h
        rcases zipOutcome_shape dst z with hgood | hrej
        · exact hgood
        · exfalso
          have hnr := applyOutcomes_no_reject _ _ _ hrun (zipEntryOutcome dst z)
            (List.mem_cons_of_mem _ (List.mem_map.mpr ⟨z, hz, rfl⟩))
          exact hnr.1 hrej
    exact (extractZipArchive_iff_applyOutcomes dst zs zfs1 zfs1).mpr (main _ zfs1 hrun hks)

/-- Instantiating the idempotence theorem at a tar archive that writes the
same file path twice and at a one-file zip archive. -/
theorem c6_idempotent_dir_file_witness :
    (∀ e ∈ ([⟨"sub", .dir, "", "", 493⟩, ⟨"sub/x.txt", .reg, "", "hello", 420⟩,
        ⟨"sub/x.txt", .reg, "", "hello2", 420⟩] : List TarEntry),
      dirFileOrSkip (tarEntryOutcome "/d" e) = true) ∧
    extractTarArchive "/d" []
        [⟨"sub", .dir, "", "", 493⟩, ⟨"sub/x.txt", .reg, "", "hello", 420⟩,
         ⟨"sub/x.txt", .reg, "", "hello2", 420⟩] =
      ([("/d", .dir 493), ("/d/sub", .dir 493), ("/d/sub/x.txt", .file "hello2" 420)],
        none) ∧
    extractZipArchive "/d" [] [⟨"z.txt", false, "zip!", 420⟩] =
      ([("/d", .dir 493), ("/d/z.txt", .file "zip!" 420)], none) ∧
    extractTarArchive "/d"
        [("/d", .dir 493), ("/d/sub", .dir 493), ("/d/sub/x.txt", .file "hello2" 420)]
        [⟨"sub", .dir, "", "", 493⟩, ⟨"sub/x.txt", .reg, "", "hello", 420⟩,
         ⟨"sub/x.txt", .reg, "", "hello2", 420⟩] =
      ([("/d", .dir 493), ("/d/sub", .dir 493), ("/d/sub/x.txt", .file "hello2" 420)],
        none) ∧
    extractZipArchive "/d" [("/d", .dir 493), ("/d/z.txt", .file "zip!" 420)]
        [⟨"z.txt", false, "zip!", 420⟩] =
      ([("/d", .dir 493), ("/d/z.txt", .file "zip!" 420)], none) :=
  ⟨by decide, by decide, by decide,
   (c6_idempotent_dir_file "/d"
     [⟨"sub", .dir, "", "", 493⟩, ⟨"sub/x.txt", .reg, "", "hello", 420⟩,
      ⟨"sub/x.txt", .reg, "", "hello2", 420⟩]
     [⟨"z.txt", false, "zip!", 420⟩]
     [("/d", .dir 493), ("/d/sub", .dir 493), ("/d/sub/x.txt", .file "hello2" 420)]
     [("/d", .dir 493), ("/d/z.txt", .file "zip!" 420)]
     (by decide) (by decide) (by decide)).1,
   (c6_idempotent_dir_file "/d"
     [⟨"sub", .dir, "", "", 493⟩, ⟨"sub/x.txt", .reg, "", "hello", 420⟩,
      ⟨"sub/x.txt", .reg, "", "hello2", 420⟩]
     [⟨"z.txt", false, "zip!", 420⟩]
     [("/d", .dir 493), ("/d/sub", .dir 493), ("/d/sub/x.txt", .file "hello2" 420)]
     [("/d", .dir 493), ("/d/z.txt", .file "zip!" 420)]
     (by decide) (by decide) (by decide)).2⟩
